import Mathlib

/-!
# Verification of the Bakery S-expression core

Shallow embedding of `src/sexpr_parser.py` (the `SExpressionParser` class:
`parse`, `to_string`, `find_footprints`, `find_library_path`, the LRU parse
cache) together with the reference classification protocol of
`src/plugins/data_sheet_localizer.py` (`_classify_datasheet_ref`) and the
text-substitution rewrite of `src/plugins/base_localizer.py`
(`replace_references_in_content`).

Python strings are modelled as `String`/`List Char`; Python lists of parsed
nodes as a mutual inductive (`SExpr` / `SList`); Python `set` as `Finset`;
Python `OrderedDict` as an association list in recency order (head oldest).
Operations that can raise (`IndexError` on a surplus `)`, `TypeError` /
`AttributeError` on degenerate tree shapes, `KeyError` on popping an empty
cache) return `Option`, with `none` marking the raised exception.
-/

set_option maxHeartbeats 1000000

namespace Bakery

mutual
/-- An S-expression node: an atom (Python `str`) or a list of nodes.
Mutual with `SList` (the Python `list` spine) so that all functions are
structural recursions that the kernel can evaluate. -/
inductive SExpr where
  | atom (s : String)
  | list (items : SList)
  deriving DecidableEq
inductive SList where
  | nil
  | cons (head : SExpr) (tail : SList)
  deriving DecidableEq
end

/-- Convert a Lean list of nodes to a spine. -/
def ofList : List SExpr → SList
  | [] => .nil
  | x :: xs => .cons x (ofList xs)

/-- Convert a spine back to a Lean list. -/
def SList.toList : SList → List SExpr
  | .nil => []
  | .cons x xs => x :: xs.toList

/-- Python str.strip() whitespace, restricted to the code points that can
appear here (ASCII whitespace plus the C1 separators Python also strips). -/
def isPyWs (c : Char) : Bool :=
  c = ' ' ∨ c = '\t' ∨ c = '\n' ∨ c = '\r' ∨ c = '\x0b' ∨ c = '\x0c' ∨
  c = '\x1c' ∨ c = '\x1d' ∨ c = '\x1e' ∨ c = '\x1f' ∨ c = '\x85'

/-- Python `s.strip()` on a character list. -/
def pyStrip (l : List Char) : List Char :=
  ((l.dropWhile isPyWs).reverse.dropWhile isPyWs).reverse

/-- Python `s.strip('"')` on a character list. -/
def stripQuote (l : List Char) : List Char :=
  ((l.dropWhile (· = '"')).reverse.dropWhile (· = '"')).reverse

/-- Python `s.strip()` on a `String`. -/
def pyStripS (s : String) : String := ⟨pyStrip s.data⟩

/-- Python `s.strip('"')` on a `String`. -/
def stripQuoteS (s : String) : String := ⟨stripQuote s.data⟩

/-! ## The tokenizer/parser (`SExpressionParser.parse`, lines 85–159)

State of the character scan: the stack of in-progress lists (head of
`stack` is Python's `stack[-1]`, the innermost open list), the pending
token buffer, the `in_string` and `escape_next` flags, and the previously
scanned character (`text[i-1]`, `none` at position 0). -/

structure PState where
  stack : List (List SExpr)
  token : List Char
  inString : Bool
  escape : Bool
  prev : Option Char
  deriving DecidableEq

/-- The whitespace characters the scanner treats as token boundaries
(line 145: `char in ' \t\n\r'`). -/
def isScanWs (c : Char) : Bool := c = ' ' ∨ c = '\t' ∨ c = '\n' ∨ c = '\r'

/-- `stack[-1].append(current_token.strip()); current_token = ""` guarded by
`if current_token:`. -/
def flushTop (stack : List (List SExpr)) (tk : List Char) : List (List SExpr) :=
  if tk = [] then stack
  else match stack with
    | top :: rest => (top ++ [SExpr.atom ⟨pyStrip tk⟩]) :: rest
    | [] => []

/-- One iteration of the scan loop (lines 111–152), in the source's branch
order.  `none` models the `IndexError` raised by `stack[-1]` after popping
the last stack frame on a surplus `)`. -/
def parseStep (st : PState) (c : Char) : Option PState :=
  if st.escape then
    some { st with token := st.token ++ [c], escape := false, prev := some c }
  else if c = '\\' ∧ st.inString then
    some { st with token := st.token ++ [c], escape := true, prev := some c }
  else if c = '"' ∧ st.prev ≠ some '\\' then
    some { st with inString := !st.inString, token := st.token ++ [c], prev := some c }
  else if st.inString then
    some { st with token := st.token ++ [c], prev := some c }
  else if c = '(' then
    some { st with stack := [] :: flushTop st.stack st.token, token := [], prev := some c }
  else if c = ')' then
    match flushTop st.stack st.token with
    | completed :: next :: rest =>
      some { st with stack := (next ++ [SExpr.list (ofList completed)]) :: rest,
                     token := [], prev := some c }
    | _ => none
  else if isScanWs c then
    some { st with stack := flushTop st.stack st.token, token := [], prev := some c }
  else
    some { st with token := st.token ++ [c], prev := some c }

/-- Run the scan over a character list. -/
def parseRun : PState → List Char → Option PState
  | st, [] => some st
  | st, c :: cs =>
    match parseStep st c with
    | none => none
    | some st' => parseRun st' cs

/-- Initial scanner state: `stack = [[]]`, empty token, outside any string. -/
def initState : PState := ⟨[[]], [], false, false, none⟩

/-- `result = stack[0][0] if stack[0] else []` (line 154).  Python's
`stack[0]` is the bottom frame, i.e. the last element of our head-first
stack. -/
def finishParse (st : PState) : SExpr :=
  match st.stack.getLast? with
  | some (x :: _) => x
  | _ => SExpr.list .nil

/-- `parse` on already-stripped text (the text after line 94). -/
def parseCore (l : List Char) : Option SExpr :=
  (parseRun initState l).map finishParse

/-- `SExpressionParser.parse` without the cache: strip, then scan.
`none` models the `IndexError` on a surplus `)` at depth 0. -/
def parse (s : String) : Option SExpr := parseCore (pyStrip s.data)

/-- Notation-free builder for concrete trees. -/
def L (xs : List SExpr) : SExpr := .list (ofList xs)

/-! ## A depth-only abstraction of the scan, used to characterise exactly
when `parse` raises: the only failure point is a `)` processed as a list
terminator while the paren depth is zero (Python's `IndexError` from
`stack[-1]` after popping the outermost frame). -/

/-- Scanner state with the tree construction erased: only the paren depth,
string/escape flags and the previous character remain. -/
structure DState where
  depth : Nat
  inString : Bool
  escape : Bool
  prev : Option Char
  deriving DecidableEq

/-- `parseStep` with the stack replaced by its depth (`stack.length - 1`). -/
def depthStep (st : DState) (c : Char) : Option DState :=
  if st.escape then some { st with escape := false, prev := some c }
  else if c = '\\' ∧ st.inString then some { st with escape := true, prev := some c }
  else if c = '"' ∧ st.prev ≠ some '\\' then
    some { st with inString := !st.inString, prev := some c }
  else if st.inString then some { st with prev := some c }
  else if c = '(' then some { st with depth := st.depth + 1, prev := some c }
  else if c = ')' then
    match st.depth with
    | 0 => none
    | d + 1 => some { st with depth := d, prev := some c }
  else if isScanWs c then some { st with prev := some c }
  else some { st with prev := some c }

/-- Run the depth scan. -/
def depthRun : DState → List Char → Option DState
  | st, [] => some st
  | st, c :: cs =>
    match depthStep st c with
    | none => none
    | some st' => depthRun st' cs

/-- Decides "no surplus `)` at depth 0 outside quoted strings": the depth
scan of the stripped text completes. -/
def closeOk (s : String) : Bool :=
  (depthRun ⟨0, false, false, none⟩ (pyStrip s.data)).isSome

/-- The full state and the depth state track each other. -/
def Agree (p : PState) (d : DState) : Prop :=
  p.stack.length = d.depth + 1 ∧ p.inString = d.inString ∧
    p.escape = d.escape ∧ p.prev = d.prev

theorem flushTop_length (stack : List (List SExpr)) (tk : List Char) :
    (flushTop stack tk).length = stack.length := by
  unfold flushTop
  split
  · rfl
  · cases stack <;> rfl

theorem step_agree {p : PState} {d : DState} (c : Char) (h : Agree p d) :
    (parseStep p c = none ∧ depthStep d c = none) ∨
      ∃ p' d', parseStep p c = some p' ∧ depthStep d c = some d' ∧ Agree p' d' := by
  obtain ⟨stk, tk, iS, esc, pv⟩ := p
  obtain ⟨dep, iS', esc', pv'⟩ := d
  obtain ⟨hlen, hS, hE, hP⟩ := h
  simp only at hlen hS hE hP
  subst hS hE hP
  simp only [parseStep, depthStep]
  split_ifs
  · exact Or.inr ⟨_, _, rfl, rfl, hlen, rfl, rfl, rfl⟩
  · exact Or.inr ⟨_, _, rfl, rfl, hlen, rfl, rfl, rfl⟩
  · exact Or.inr ⟨_, _, rfl, rfl, hlen, rfl, rfl, rfl⟩
  · exact Or.inr ⟨_, _, rfl, rfl, hlen, rfl, rfl, rfl⟩
  · exact Or.inr ⟨_, _, rfl, rfl, by simpa [flushTop_length] using hlen, rfl, rfl, rfl⟩
  · -- the `)` case: relate the popped stack to the decremented depth
    have hf : (flushTop stk tk).length = stk.length := flushTop_length stk tk
    rcases hft : flushTop stk tk with _ | ⟨a, _ | ⟨b, rest⟩⟩
    · rw [hft] at hf
      simp at hf
      omega
    · rw [hft] at hf
      have : dep = 0 := by simp at hf; omega
      subst this
      exact Or.inl ⟨rfl, rfl⟩
    · rw [hft] at hf
      have hd : dep = rest.length + 1 := by simp at hf; omega
      subst hd
      exact Or.inr ⟨_, _, rfl, rfl, by simp, rfl, rfl, rfl⟩
  · exact Or.inr ⟨_, _, rfl, rfl, by simpa [flushTop_length] using hlen, rfl, rfl, rfl⟩
  · exact Or.inr ⟨_, _, rfl, rfl, hlen, rfl, rfl, rfl⟩

theorem run_agree {p : PState} {d : DState} (l : List Char) (h : Agree p d) :
    (parseRun p l).isSome ↔ (depthRun d l).isSome := by
  induction l generalizing p d with
  | nil => simp [parseRun, depthRun]
  | cons c cs ih =>
    rcases step_agree c h with ⟨hp, hd⟩ | ⟨p', d', hp, hd, h'⟩
    · simp [parseRun, depthRun, hp, hd]
    · simp only [parseRun, depthRun, hp, hd]
      exact ih h'

/-! ## The serializer (`to_string`, `_format_symbol_lib`, `_format_symbol`,
lines 161–421)

`_format_symbol` evaluates `keyword in inline_keywords` on the first element
of every list it reaches; when that first element is itself a list, Python
raises `TypeError: unhashable type`.  That raise is modelled as `none`. -/

/-- `'\t' * indent`. -/
def tabs (n : Nat) : List Char := List.replicate n '\t'

/-- The `inline_keywords` set of `_format_symbol` (lines 347–351). -/
def inlineKeywords : List String :=
  ["version", "generator", "generator_version", "hide", "offset",
   "exclude_from_sim", "in_bom", "on_board", "at", "size", "justify",
   "width", "type", "length", "number", "embedded_fonts",
   "power", "xy", "start", "mid", "end",
   "radius", "center"]

/-- Spine length (`len(sexpr)` minus the keyword slot when applied to the tail). -/
def SList.len : SList → Nat
  | .nil => 0
  | .cons _ xs => xs.len + 1

/-- `isinstance(item, list)`. -/
def isListNode : SExpr → Bool
  | .list _ => true
  | .atom _ => false

/-- `isinstance(item, list) and len(item) > 2` (the `has_complex` test). -/
def isComplexItem : SExpr → Bool
  | .list l => l.len > 2
  | .atom _ => false

/-- `any(...)` over a spine. -/
def SList.anyB (p : SExpr → Bool) : SList → Bool
  | .nil => false
  | .cons x xs => p x || xs.anyB p

/-- `all(not isinstance(x, list) for x in item)`. -/
def SList.allAtoms : SList → Bool
  | .nil => true
  | .cons (.atom _) xs => xs.allAtoms
  | .cons (.list _) _ => false

/-- `len(sexpr) == 2 and not isinstance(sexpr[1], list)` applied to the tail. -/
def singleAtomTail : SList → Bool
  | .cons (.atom _) .nil => true
  | _ => false

/-- `len(sexpr) > 1 and not isinstance(sexpr[1], list)` applied to the tail. -/
def headIsAtom : SList → Bool
  | .cons (.atom _) _ => true
  | _ => false


mutual
/-- `SExpressionParser._format_symbol` (lines 332–421). -/
def formatSymbol (sexpr : SExpr) (indent : Nat) : Option (List Char) :=
  match sexpr with
  | .atom s => some s.data
  | .list .nil => some "[]".data
  | .list (.cons k items) =>
    match k with
    | .list _ => none
    | .atom kw =>
      let tb := tabs indent
      if kw ∈ inlineKeywords ∨ singleAtomTail items then
        do pure ('(' :: kw.data ++ (← fsInline items) ++ [')'])
      else if kw = "pts" then
        do pure ('(' :: kw.data ++ (← fsInline items) ++ [')'])
      else if kw = "symbol" ∧ headIsAtom items then
        fsSymbolTail items tb indent
      else if kw = "pin_names" ∨ kw = "pin_numbers" then
        if items = .nil then some ('(' :: kw.data ++ [')'])
        else if !(items.anyB isComplexItem) then
          do pure ('(' :: kw.data ++ (← fsBlock items tb 0) ++ '\n' :: tb ++ [')'])
        else
          do pure ('(' :: kw.data ++ (← fsMulti items tb indent kw) ++ '\n' :: tb ++ [')'])
      else
        do pure ('(' :: kw.data ++ (← fsMulti items tb indent kw) ++ '\n' :: tb ++ [')'])

/-- The `symbol` form body (lines 376–384): the name atom stays on the
opening line, each remaining item goes on its own indented line.  Only
reached under the `headIsAtom` guard, so the fallback is unreachable. -/
def fsSymbolTail : SList → List Char → Nat → Option (List Char)
  | .cons (.atom nm) rest, tb, indent =>
    do pure ("(symbol ".data ++ nm.data ++ (← fsBlock rest tb (indent + 1)) ++
              '\n' :: tb ++ [')'])
  | _, _, _ => none

/-- Items of the inline and `pts` forms: `' ' + rendered`. -/
def fsInline : SList → Option (List Char)
  | .nil => some []
  | .cons x xs =>
    match x with
    | .list _ => do pure (' ' :: (← formatSymbol x 0) ++ (← fsInline xs))
    | .atom a => do pure (' ' :: a.data ++ (← fsInline xs))

/-- Items placed on their own indented line (`symbol` body, compact
`pin_names`/`pin_numbers`); list children recurse at the given indent. -/
def fsBlock : SList → List Char → Nat → Option (List Char)
  | .nil, _, _ => some []
  | .cons x xs, tb, ind =>
    match x with
    | .list _ => do pure ('\n' :: tb ++ '\t' :: (← formatSymbol x ind) ++ (← fsBlock xs tb ind))
    | .atom a => do pure ('\n' :: tb ++ '\t' :: a.data ++ (← fsBlock xs tb ind))

/-- Items of the multi-line default form (lines 404–419). -/
def fsMulti : SList → List Char → Nat → String → Option (List Char)
  | .nil, _, _, _ => some []
  | .cons x xs, tb, indent, kw =>
    match x with
    | .list l =>
      if l.len ≤ 3 ∧ l.allAtoms then
        do pure ('\n' :: tb ++ '\t' :: (← formatSymbol x 0) ++ (← fsMulti xs tb indent kw))
      else
        do pure ('\n' :: tb ++ '\t' :: (← formatSymbol x (indent + 1)) ++ (← fsMulti xs tb indent kw))
    | .atom a =>
      if kw = "property" ∨ kw = "pin" ∨ kw = "name" then
        do pure (' ' :: a.data ++ (← fsMulti xs tb indent kw))
      else
        do pure ('\n' :: tb ++ '\t' :: a.data ++ (← fsMulti xs tb indent kw))
end

/-- Items of `_format_symbol_lib` (lines 321–327): nested lists recurse into
`_format_symbol`; plain atoms are wrapped as `(item)`. -/
def fslItems : SList → List Char → Nat → Option (List Char)
  | .nil, _, _ => some []
  | .cons x xs, tb, indent =>
    match x with
    | .list _ => do pure ('\n' :: tb ++ '\t' :: (← formatSymbol x (indent + 1)) ++ (← fslItems xs tb indent))
    | .atom a => do pure ('\n' :: tb ++ '\t' :: '(' :: a.data ++ ')' :: (← fslItems xs tb indent))

/-- `SExpressionParser._format_symbol_lib` (lines 310–330).  Only reached
from `to_string` when the head is the atom `kicad_symbol_lib`. -/
def formatSymbolLib (sexpr : SExpr) (indent : Nat) : Option (List Char) :=
  match sexpr with
  | .list (.cons (.atom kw) items) =>
    let tb := tabs indent
    do pure ('(' :: kw.data ++ (← fslItems items tb indent) ++ '\n' :: tb ++ [')'])
  | _ => none

mutual
/-- `SExpressionParser.to_string` (lines 161–210). -/
def toStr (sexpr : SExpr) (indent : Nat) : Option (List Char) :=
  match sexpr with
  | .atom s => some s.data
  | .list .nil => some ['(', ')']
  | .list (.cons h items) =>
    if h = .atom "fp_lib_table" then
      do pure ("(fp_lib_table".data ++ (← tsTable items indent) ++ "\n)".data)
    else if h = .atom "lib" then
      do pure ("(lib".data ++ (← tsConcat items indent) ++ [')'])
    else if h = .atom "kicad_symbol_lib" then
      formatSymbolLib (.list (.cons h items)) indent
    else if h = .atom "symbol" then
      formatSymbol (.list (.cons h items)) indent
    else
      do pure ('(' :: (← toStr h indent) ++ (← tsSpaced items indent) ++ [')'])

/-- `fp_lib_table` children: list items each on a `'\n  '` line, atoms
silently dropped (lines 178–180). -/
def tsTable : SList → Nat → Option (List Char)
  | .nil, _ => some []
  | .cons x xs, indent =>
    match x with
    | .list _ => do pure ("\n  ".data ++ (← toStr x (indent + 2)) ++ (← tsTable xs indent))
    | .atom _ => tsTable xs indent

/-- `lib` children: concatenated with no separator (lines 186–189). -/
def tsConcat : SList → Nat → Option (List Char)
  | .nil, _ => some []
  | .cons x xs, indent => do pure ((← toStr x indent) ++ (← tsConcat xs indent))

/-- Default compact items after the first: `' ' + rendered` (lines 202–207). -/
def tsSpaced : SList → Nat → Option (List Char)
  | .nil, _ => some []
  | .cons x xs, indent => do pure (' ' :: (← toStr x indent) ++ (← tsSpaced xs indent))
end

/-- `to_string` at the `String` level. -/
def to_string (sexpr : SExpr) (indent : Nat := 0) : Option String :=
  (toStr sexpr indent).map (⟨·⟩)

example : to_string (L [.atom "a", L [], .atom "\"b c\""]) = some "(a () \"b c\")" := rfl
example : to_string (L [.atom "lib", .atom "MyLib"]) = some "(libMyLib)" := rfl
example : to_string (L [.atom "symbol", L [L [.atom "x"], .atom "y"]]) = none := rfl
example : to_string (L [.atom "fp_lib_table", L [.atom "lib", L [.atom "name", .atom "A"]]]) =
    some "(fp_lib_table\n  (lib(name A))\n)" := rfl

/-- Head slot of a nonempty list is not itself a list (the shape whose
formatting raises `TypeError` in `_format_symbol`). -/
def headLowOk : SList → Bool
  | .cons (.list _) _ => false
  | _ => true

mutual
/-- Every nonempty list anywhere in the tree has an atom first element. -/
def headsOk : SExpr → Bool
  | .atom _ => true
  | .list l => headLowOk l && headsOkL l
def headsOkL : SList → Bool
  | .nil => true
  | .cons x xs => headsOk x && headsOkL xs
end

theorem headsOkL_cons_iff (x : SExpr) (xs : SList) :
    headsOkL (.cons x xs) = true ↔ (headsOk x = true ∧ headsOkL xs = true) := by
  rw [headsOkL, Bool.and_eq_true]

theorem headsOk_shape (k : SExpr) (items : SList) :
    headsOk (.list (.cons k items)) = true ↔
      (headLowOk (.cons k items) = true ∧ (headsOk k = true ∧ headsOkL items = true)) := by
  rw [headsOk, headsOkL, Bool.and_eq_true, Bool.and_eq_true]

mutual
theorem formatSymbol_some (t : SExpr) (h : headsOk t = true) (i : Nat) :
    ∃ s, formatSymbol t i = some s := by
  match t with
  | .atom s => exact ⟨s.data, rfl⟩
  | .list .nil => exact ⟨"[]".data, rfl⟩
  | .list (.cons k items) =>
    match k with
    | .list _ => rw [headsOk] at h; simp [headLowOk] at h
    | .atom kw =>
      have hL : headsOkL items = true := ((headsOk_shape _ _).mp h).2.2
      rw [formatSymbol]
      split_ifs with h1 h2 h3 h4 h5 h6
      · obtain ⟨s, hs⟩ := fsInline_some items hL
        exact ⟨_, by rw [hs]; rfl⟩
      · obtain ⟨s, hs⟩ := fsInline_some items hL
        exact ⟨_, by rw [hs]; rfl⟩
      · exact fsSymbolTail_some items (tabs i) i h3.2 hL
      · exact ⟨_, rfl⟩
      · obtain ⟨s, hs⟩ := fsBlock_some items (tabs i) 0 hL
        exact ⟨_, by rw [hs]; rfl⟩
      · obtain ⟨s, hs⟩ := fsMulti_some items (tabs i) i kw hL
        exact ⟨_, by rw [hs]; rfl⟩
      · obtain ⟨s, hs⟩ := fsMulti_some items (tabs i) i kw hL
        exact ⟨_, by rw [hs]; rfl⟩

theorem fsSymbolTail_some (l : SList) (tb : List Char) (ind : Nat)
    (hAtom : headIsAtom l = true) (h : headsOkL l = true) :
    ∃ s, fsSymbolTail l tb ind = some s := by
  match l with
  | .nil => exact absurd hAtom (by simp [headIsAtom])
  | .cons (.list m) rest => exact absurd hAtom (by simp [headIsAtom])
  | .cons (.atom nm) rest =>
    have hrest : headsOkL rest = true := ((headsOkL_cons_iff _ _).mp h).2
    obtain ⟨s, hs⟩ := fsBlock_some rest tb (ind + 1) hrest
    exact ⟨_, by rw [fsSymbolTail, hs]; rfl⟩

theorem fsInline_some (l : SList) (h : headsOkL l = true) :
    ∃ s, fsInline l = some s := by
  match l with
  | .nil => exact ⟨[], rfl⟩
  | .cons x xs =>
    obtain ⟨hx, hxs⟩ := (headsOkL_cons_iff _ _).mp h
    obtain ⟨s2, hs2⟩ := fsInline_some xs hxs
    match x with
    | .list m =>
      obtain ⟨s1, hs1⟩ := formatSymbol_some (.list m) hx 0
      exact ⟨_, by rw [fsInline, hs1, hs2]; rfl⟩
    | .atom a => exact ⟨_, by rw [fsInline, hs2]; rfl⟩

theorem fsBlock_some (l : SList) (tb : List Char) (ind : Nat) (h : headsOkL l = true) :
    ∃ s, fsBlock l tb ind = some s := by
  match l with
  | .nil => exact ⟨[], rfl⟩
  | .cons x xs =>
    obtain ⟨hx, hxs⟩ := (headsOkL_cons_iff _ _).mp h
    obtain ⟨s2, hs2⟩ := fsBlock_some xs tb ind hxs
    match x with
    | .list m =>
      obtain ⟨s1, hs1⟩ := formatSymbol_some (.list m) hx ind
      exact ⟨_, by rw [fsBlock, hs1, hs2]; rfl⟩
    | .atom a => exact ⟨_, by rw [fsBlock, hs2]; rfl⟩

theorem fsMulti_some (l : SList) (tb : List Char) (ind : Nat) (kw : String)
    (h : headsOkL l = true) : ∃ s, fsMulti l tb ind kw = some s := by
  match l with
  | .nil => exact ⟨[], rfl⟩
  | .cons x xs =>
    obtain ⟨hx, hxs⟩ := (headsOkL_cons_iff _ _).mp h
    obtain ⟨s2, hs2⟩ := fsMulti_some xs tb ind kw hxs
    match x with
    | .list m =>
      rw [fsMulti]
      split_ifs with hc
      · obtain ⟨s1, hs1⟩ := formatSymbol_some (.list m) hx 0
        exact ⟨_, by rw [hs1, hs2]; rfl⟩
      · obtain ⟨s1, hs1⟩ := formatSymbol_some (.list m) hx (ind + 1)
        exact ⟨_, by rw [hs1, hs2]; rfl⟩
    | .atom a =>
      rw [fsMulti]
      split_ifs with hc
      · exact ⟨_, by rw [hs2]; rfl⟩
      · exact ⟨_, by rw [hs2]; rfl⟩
end

theorem fslItems_some (l : SList) (tb : List Char) (ind : Nat) (h : headsOkL l = true) :
    ∃ s, fslItems l tb ind = some s := by
  match l with
  | .nil => exact ⟨[], rfl⟩
  | .cons x xs =>
    obtain ⟨hx, hxs⟩ := (headsOkL_cons_iff _ _).mp h
    obtain ⟨s2, hs2⟩ := fslItems_some xs tb ind hxs
    match x with
    | .list m =>
      obtain ⟨s1, hs1⟩ := formatSymbol_some (.list m) hx (ind + 1)
      exact ⟨_, by rw [fslItems, hs1, hs2]; rfl⟩
    | .atom a => exact ⟨_, by rw [fslItems, hs2]; rfl⟩

mutual
theorem toStr_some (t : SExpr) (h : headsOk t = true) (i : Nat) :
    ∃ s, toStr t i = some s := by
  match t with
  | .atom s => exact ⟨s.data, rfl⟩
  | .list .nil => exact ⟨['(', ')'], rfl⟩
  | .list (.cons k items) =>
    have hL : headsOkL items = true := ((headsOk_shape _ _).mp h).2.2
    have hk : headsOk k = true := ((headsOk_shape _ _).mp h).2.1
    rw [toStr]
    split_ifs with h1 h2 h3 h4
    · obtain ⟨s, hs⟩ := tsTable_some items i hL
      exact ⟨_, by rw [hs]; rfl⟩
    · obtain ⟨s, hs⟩ := tsConcat_some items i hL
      exact ⟨_, by rw [hs]; rfl⟩
    · subst h3
      obtain ⟨s, hs⟩ := fslItems_some items (tabs i) i hL
      exact ⟨_, by rw [formatSymbolLib, hs]; rfl⟩
    · exact formatSymbol_some _ h i
    · obtain ⟨s1, hs1⟩ := toStr_some k hk i
      obtain ⟨s2, hs2⟩ := tsSpaced_some items i hL
      exact ⟨_, by rw [hs1, hs2]; rfl⟩

theorem tsTable_some (l : SList) (i : Nat) (h : headsOkL l = true) :
    ∃ s, tsTable l i = some s := by
  match l with
  | .nil => exact ⟨[], rfl⟩
  | .cons x xs =>
    obtain ⟨hx, hxs⟩ := (headsOkL_cons_iff _ _).mp h
    obtain ⟨s2, hs2⟩ := tsTable_some xs i hxs
    match x with
    | .list m =>
      obtain ⟨s1, hs1⟩ := toStr_some (.list m) hx (i + 2)
      exact ⟨_, by rw [tsTable, hs1, hs2]; rfl⟩
    | .atom a => exact ⟨_, by rw [tsTable]; exact hs2⟩

theorem tsConcat_some (l : SList) (i : Nat) (h : headsOkL l = true) :
    ∃ s, tsConcat l i = some s := by
  match l with
  | .nil => exact ⟨[], rfl⟩
  | .cons x xs =>
    obtain ⟨hx, hxs⟩ := (headsOkL_cons_iff _ _).mp h
    obtain ⟨s2, hs2⟩ := tsConcat_some xs i hxs
    obtain ⟨s1, hs1⟩ := toStr_some x hx i
    exact ⟨_, by rw [tsConcat, hs1, hs2]; rfl⟩

theorem tsSpaced_some (l : SList) (i : Nat) (h : headsOkL l = true) :
    ∃ s, tsSpaced l i = some s := by
  match l with
  | .nil => exact ⟨[], rfl⟩
  | .cons x xs =>
    obtain ⟨hx, hxs⟩ := (headsOkL_cons_iff _ _).mp h
    obtain ⟨s2, hs2⟩ := tsSpaced_some xs i hxs
    obtain ⟨s1, hs1⟩ := toStr_some x hx i
    exact ⟨_, by rw [tsSpaced, hs1, hs2]; rfl⟩
end

example : parse "(lib MyLib)" = some (L [.atom "lib", .atom "MyLib"]) := rfl
example : parse "  (a (b \"c d\") e)" =
    some (L [.atom "a", L [.atom "b", .atom "\"c d\""], .atom "e"]) := rfl
example : parse ")" = none := rfl
example : parse "(a (b" = some (L []) := rfl
example : parse "" = some (L []) := rfl
example : parse "x" = some (L []) := rfl

/-! ## Round-trip: legal atoms and the canonical compact serialization -/

/-- A character usable in an unquoted atom: not whitespace (in Python's
`strip` sense, which contains the scanner's boundary set), not a paren,
not a double quote. -/
def unquotedLegal (c : Char) : Bool :=
  !isPyWs c && !(c = '(') && !(c = ')') && !(c = '"')

/-- The tail of a quoted atom after its opening `"`: a body in the scanner's
escape grammar followed by the closing `"`, such that the closing quote is
not textually preceded by a backslash (the scanner's
`text[i-1] != '\\'` test would otherwise swallow it). -/
def quotedTail : List Char → Bool
  | [] => false
  | [c] => decide (c = '"')
  | c :: d :: rest2 =>
    if c = '\\' then
      (if rest2 = [] then false
       else (if rest2 = ['"'] then decide (d ≠ '\\') else true) && quotedTail rest2)
    else if c = '"' then false
    else quotedTail (d :: rest2)

/-- A legal token, per the spec: a quoted-string atom retaining its
surrounding double quotes, or a nonempty unquoted atom free of whitespace,
parentheses and quotes. -/
def legalAtomChars : List Char → Bool
  | [] => false
  | c :: rest =>
    if c = '"' then quotedTail rest
    else unquotedLegal c && rest.all unquotedLegal

mutual
/-- Every atom of the tree is a legal token. -/
def atomsLegalE : SExpr → Bool
  | .atom a => legalAtomChars a.data
  | .list l => atomsLegalL l
def atomsLegalL : SList → Bool
  | .nil => true
  | .cons x xs => atomsLegalE x && atomsLegalL xs
end

/-- The four keywords that trigger special serialization layouts. -/
def specialKws : List String := ["fp_lib_table", "lib", "kicad_symbol_lib", "symbol"]

/-- Head of a nonempty list is not a special-layout keyword. -/
def headNotSpecial : SList → Bool
  | .nil => true
  | .cons (.atom kw) _ => !(decide (kw ∈ specialKws))
  | .cons (.list _) _ => true

mutual
/-- No list node anywhere in the tree starts with a special-layout keyword. -/
def noSpecialE : SExpr → Bool
  | .atom _ => true
  | .list l => headNotSpecial l && noSpecialL l
def noSpecialL : SList → Bool
  | .nil => true
  | .cons x xs => noSpecialE x && noSpecialL xs
end

mutual
/-- The compact serialization `to_string` produces on trees with no
special-layout keywords. -/
def ser : SExpr → List Char
  | .atom a => a.data
  | .list .nil => ['(', ')']
  | .list (.cons h items) => '(' :: (ser h ++ (serTail items ++ [')']))
/-- Serialized items after the first: `' ' + rendered` each. -/
def serTail : SList → List Char
  | .nil => []
  | .cons x xs => ' ' :: (ser x ++ serTail xs)
end

/-- Last character of a scanned segment, or the inherited previous one. -/
def lastOr (p : Option Char) : List Char → Option Char
  | [] => p
  | c :: rest => lastOr (some c) rest

theorem lastOr_eq_getLast (l : List Char) (q : Option Char) (h : l ≠ []) :
    lastOr q l = l.getLast? := by
  induction l generalizing q with
  | nil => exact absurd rfl h
  | cons c rest ih =>
    rw [lastOr]
    cases rest with
    | nil => rfl
    | cons d ds => rw [ih (some c) (by simp), List.getLast?_cons_cons]

theorem scanWs_pyWs {c : Char} (h : isScanWs c = true) : isPyWs c = true := by
  simp only [isScanWs, isPyWs, decide_eq_true_eq, Bool.or_eq_true] at *
  tauto

theorem parseRun_step {st st' : PState} {c : Char} (h : parseStep st c = some st')
    (cs : List Char) : parseRun st (c :: cs) = parseRun st' cs := by
  rw [parseRun, h]

/-- Scanning unquoted-legal characters outside a string just accumulates
them into the pending token. -/
theorem scanPlain (l : List Char) (hl : l.all unquotedLegal = true) :
    ∀ (S : List (List SExpr)) (tk : List Char) (p : Option Char) (suffix : List Char),
    parseRun ⟨S, tk, false, false, p⟩ (l ++ suffix) =
      parseRun ⟨S, tk ++ l, false, false, lastOr p l⟩ suffix := by
  induction l with
  | nil => intro S tk p suffix; simp [lastOr]
  | cons c rest ih =>
    intro S tk p suffix
    rw [List.all_cons, Bool.and_eq_true] at hl
    have hc := hl.1
    simp only [unquotedLegal, Bool.and_eq_true, Bool.not_eq_true',
      decide_eq_false_iff_not] at hc
    obtain ⟨⟨⟨hws, hlp⟩, hrp⟩, hq⟩ := hc
    have hsw : isScanWs c = false := by
      cases hsw : isScanWs c with
      | false => rfl
      | true => rw [scanWs_pyWs hsw] at hws; cases hws
    have hstep : parseStep ⟨S, tk, false, false, p⟩ c =
        some ⟨S, tk ++ [c], false, false, some c⟩ := by
      simp [parseStep, hq, hlp, hrp, hsw]
    rw [List.cons_append, parseRun_step hstep, ih hl.2]
    simp [lastOr]

theorem quotedTail_head_quote (l : List Char) (hl : quotedTail l = true)
    (hh : l.head? = some '"') : l = ['"'] := by
  match l with
  | [] => exact absurd hh (by simp)
  | [c] =>
    rw [List.head?_cons, Option.some_inj] at hh
    subst hh
    rfl
  | c :: d :: rest2 =>
    rw [List.head?_cons, Option.some_inj] at hh
    subst hh
    rw [quotedTail, if_neg (by decide), if_pos rfl] at hl
    simp at hl

theorem quotedTail_lastOr (l : List Char) (hl : quotedTail l = true) :
    ∀ q, lastOr q l = some '"' := by
  match l with
  | [] => exact absurd hl (by decide)
  | [c] =>
    rw [quotedTail, decide_eq_true_eq] at hl
    subst hl
    intro q
    rfl
  | c :: d :: rest2 =>
    intro q
    rw [quotedTail] at hl
    rw [lastOr]
    by_cases hb : c = '\\'
    · rw [if_pos hb] at hl
      by_cases h1 : rest2 = []
      · rw [if_pos h1] at hl
        simp at hl
      · rw [if_neg h1, Bool.and_eq_true] at hl
        rw [lastOr]
        exact quotedTail_lastOr rest2 hl.2 (some d)
    · rw [if_neg hb] at hl
      by_cases hq : c = '"'
      · rw [if_pos hq] at hl
        simp at hl
      · rw [if_neg hq] at hl
        exact quotedTail_lastOr (d :: rest2) hl (some c)

/-- Scanning the remainder of a quoted atom (body plus closing quote)
accumulates it verbatim and leaves string mode. -/
theorem scanQuoted (l : List Char) (hl : quotedTail l = true) :
    ∀ (S : List (List SExpr)) (tk : List Char) (p : Option Char) (suffix : List Char),
    (l.head? = some '"' → p ≠ some '\\') →
    parseRun ⟨S, tk, true, false, p⟩ (l ++ suffix) =
      parseRun ⟨S, tk ++ l, false, false, some '"'⟩ suffix := by
  match l with
  | [] => exact absurd hl (by decide)
  | [c] =>
    rw [quotedTail, decide_eq_true_eq] at hl
    subst hl
    intro S tk p suffix hp
    have hstep : parseStep ⟨S, tk, true, false, p⟩ '"' =
        some ⟨S, tk ++ ['"'], false, false, some '"'⟩ := by
      simp [parseStep, hp rfl]
    rw [List.cons_append, List.nil_append, parseRun_step hstep]
  | c :: d :: rest2 =>
    intro S tk p suffix hp
    rw [quotedTail] at hl
    by_cases hb : c = '\\'
    · rw [if_pos hb] at hl
      subst hb
      by_cases h1 : rest2 = []
      · rw [if_pos h1] at hl
        simp at hl
      · rw [if_neg h1, Bool.and_eq_true] at hl
        have hstep1 : parseStep ⟨S, tk, true, false, p⟩ '\\' =
            some ⟨S, tk ++ ['\\'], true, true, some '\\'⟩ := by
          simp [parseStep]
        have hstep2 : parseStep ⟨S, tk ++ ['\\'], true, true, some '\\'⟩ d =
            some ⟨S, tk ++ ['\\'] ++ [d], true, false, some d⟩ := by
          simp [parseStep]
        have hnext : rest2.head? = some '"' → some d ≠ some '\\' := by
          intro hh
          by_cases h2 : rest2 = ['"']
          · rw [if_pos h2] at hl
            simpa using hl.1
          · exact absurd (quotedTail_head_quote rest2 hl.2 hh) h2
        have hl2 : quotedTail rest2 = true := hl.2
        rw [List.cons_append, parseRun_step hstep1, List.cons_append,
          parseRun_step hstep2,
          scanQuoted rest2 hl2 S (tk ++ ['\\'] ++ [d]) (some d) suffix hnext]
        simp
    · rw [if_neg hb] at hl
      by_cases hq : c = '"'
      · rw [if_pos hq] at hl
        simp at hl
      · rw [if_neg hq] at hl
        have hstep : parseStep ⟨S, tk, true, false, p⟩ c =
            some ⟨S, tk ++ [c], true, false, some c⟩ := by
          simp [parseStep, hb, hq]
        rw [List.cons_append, parseRun_step hstep,
          scanQuoted (d :: rest2) hl S (tk ++ [c]) (some c) suffix
            (fun _ => by simp [hb])]
        simp

/-- Scanning a legal atom from an empty token buffer accumulates exactly its
characters, ending outside string mode. -/
theorem scanAtom (a : List Char) (ha : legalAtomChars a = true) :
    ∀ (S : List (List SExpr)) (p : Option Char) (suffix : List Char),
    p ≠ some '\\' →
    parseRun ⟨S, [], false, false, p⟩ (a ++ suffix) =
      parseRun ⟨S, a, false, false, lastOr p a⟩ suffix := by
  match a with
  | [] => cases ha
  | c :: rest =>
    intro S p suffix hp
    rw [legalAtomChars] at ha
    by_cases hq : c = '"'
    · rw [if_pos hq] at ha
      subst hq
      have hstep : parseStep ⟨S, [], false, false, p⟩ '"' =
          some ⟨S, ['"'], true, false, some '"'⟩ := by
        simp [parseStep, hp]
      rw [List.cons_append, parseRun_step hstep,
        scanQuoted rest ha S ['"'] (some '"') suffix (fun _ => by simp)]
      rw [lastOr, quotedTail_lastOr rest ha (some '"')]
      rfl
    · rw [if_neg hq, Bool.and_eq_true] at ha
      have hall : (c :: rest).all unquotedLegal = true := by
        rw [List.all_cons, Bool.and_eq_true]
        exact ha
      have h := scanPlain (c :: rest) hall S [] p suffix
      rw [List.nil_append] at h
      exact h

/-- The value `flushTop` appends into the innermost open list. -/
def flushed (top : List SExpr) (tk : List Char) : List SExpr :=
  if tk = [] then top else top ++ [SExpr.atom ⟨pyStrip tk⟩]

theorem flushTop_cons (top : List SExpr) (rest : List (List SExpr)) (tk : List Char) :
    flushTop (top :: rest) tk = flushed top tk :: rest := by
  unfold flushTop flushed
  split <;> rfl

theorem pyStrip_eq_self {l : List Char}
    (h1 : ∀ c, l.head? = some c → isPyWs c = false)
    (h2 : ∀ c, l.getLast? = some c → isPyWs c = false) : pyStrip l = l := by
  unfold pyStrip
  have e1 : l.dropWhile isPyWs = l := by
    cases l with
    | nil => rfl
    | cons c rest => rw [List.dropWhile_cons, if_neg (by simp [h1 c rfl])]
  rw [e1]
  have e2 : l.reverse.dropWhile isPyWs = l.reverse := by
    cases hr : l.reverse with
    | nil => rfl
    | cons c rest =>
      have hlast : l.getLast? = some c := by
        rw [← List.head?_reverse, hr, List.head?_cons]
      rw [List.dropWhile_cons, if_neg (by simp [h2 c hlast])]
  rw [e2, List.reverse_reverse]

theorem legal_nonempty {a : List Char} (ha : legalAtomChars a = true) : a ≠ [] := by
  intro h
  subst h
  exact absurd ha (by decide)

theorem mem_of_getLast?_eq {α : Type _} {l : List α} {e : α}
    (he : l.getLast? = some e) : e ∈ l := by
  have hm : e ∈ l.getLast? := by rw [he]; rfl
  obtain ⟨h, rfl⟩ := List.mem_getLast?_eq_getLast hm
  exact List.getLast_mem h

theorem legal_pyStrip (a : List Char) (ha : legalAtomChars a = true) : pyStrip a = a := by
  match a with
  | [] => exact absurd ha (by decide)
  | c :: rest =>
    rw [legalAtomChars] at ha
    by_cases hq : c = '"'
    · rw [if_pos hq] at ha
      subst hq
      refine pyStrip_eq_self (fun e he => ?_) (fun e he => ?_)
      · rw [List.head?_cons, Option.some_inj] at he
        subst he
        rfl
      · have hlast : ('"' :: rest).getLast? = some '"' := by
          rw [← lastOr_eq_getLast ('"' :: rest) none (by simp), lastOr,
            quotedTail_lastOr rest ha]
        rw [hlast, Option.some_inj] at he
        subst he
        rfl
    · rw [if_neg hq, Bool.and_eq_true] at ha
      have hall : ∀ e ∈ c :: rest, unquotedLegal e = true := by
        intro e he
        rcases List.mem_cons.mp he with h | h
        · subst h; exact ha.1
        · exact List.all_eq_true.mp ha.2 e h
      have hws : ∀ e ∈ c :: rest, isPyWs e = false := by
        intro e he
        have := hall e he
        simp only [unquotedLegal, Bool.and_eq_true, Bool.not_eq_true'] at this
        exact this.1.1.1
      refine pyStrip_eq_self (fun e he => ?_) (fun e he => ?_)
      · rw [List.head?_cons, Option.some_inj] at he
        subst he
        exact hws c (by simp)
      · exact hws e (mem_of_getLast?_eq he)

theorem ofList_toList (l : SList) : ofList l.toList = l := by
  match l with
  | .nil => rfl
  | .cons x xs => rw [SList.toList, ofList, ofList_toList xs]

theorem atomsLegalL_cons_iff (x : SExpr) (xs : SList) :
    atomsLegalL (.cons x xs) = true ↔ (atomsLegalE x = true ∧ atomsLegalL xs = true) := by
  rw [atomsLegalL, Bool.and_eq_true]

theorem atomsLegalE_list (l : SList) : atomsLegalE (.list l) = atomsLegalL l := by
  rw [atomsLegalE]

theorem flushed_legal (c : List SExpr) (a : String) (ha : legalAtomChars a.data = true) :
    flushed c a.data = c ++ [SExpr.atom a] := by
  unfold flushed
  rw [if_neg (legal_nonempty ha), legal_pyStrip a.data ha]

theorem flushed_nil (c : List SExpr) : flushed c [] = c := if_pos rfl

mutual
/-- Scanning the compact serialization of a list tree appends exactly that
tree to the innermost open list. -/
theorem scanTree (t : SExpr) (ht : atomsLegalE t = true) (hL : isListNode t = true) :
    ∀ (acc : List SExpr) (S : List (List SExpr)) (p : Option Char) (suffix : List Char),
    parseRun ⟨acc :: S, [], false, false, p⟩ (ser t ++ suffix) =
      parseRun ⟨(acc ++ [t]) :: S, [], false, false, some ')'⟩ suffix := by
  match t with
  | .atom _ => exact absurd hL (by simp [isListNode])
  | .list .nil =>
    intro acc S p suffix
    have h1 : parseStep ⟨acc :: S, [], false, false, p⟩ '(' =
        some ⟨[] :: acc :: S, [], false, false, some '('⟩ := by
      simp [parseStep, flushTop]
    have h2 : parseStep ⟨[] :: acc :: S, [], false, false, some '('⟩ ')' =
        some ⟨(acc ++ [SExpr.list .nil]) :: S, [], false, false, some ')'⟩ := by
      simp [parseStep, flushTop, ofList]
    rw [ser]
    simp only [List.cons_append, List.nil_append]
    rw [parseRun_step h1, parseRun_step h2]
  | .list (.cons x items) =>
    intro acc S p suffix
    rw [atomsLegalE_list, atomsLegalL_cons_iff] at ht
    have h1 : parseStep ⟨acc :: S, [], false, false, p⟩ '(' =
        some ⟨[] :: acc :: S, [], false, false, some '('⟩ := by
      simp [parseStep, flushTop]
    rw [ser, List.cons_append, parseRun_step h1, List.append_assoc,
      List.append_assoc, List.singleton_append]
    match x with
    | .atom a =>
      rw [show ser (SExpr.atom a) = a.data from rfl,
        scanAtom a.data ht.1 ([] :: acc :: S) (some '(') _ (by simp),
        scanTail items ht.2 [] acc S a.data _ suffix,
        flushed_legal [] a ht.1, List.nil_append, List.singleton_append,
        ofList, ofList_toList]
    | .list m =>
      rw [scanTree (.list m) ht.1 (by simp [isListNode]) [] (acc :: S) (some '(') _,
        List.nil_append,
        scanTail items ht.2 [SExpr.list m] acc S [] (some ')') suffix,
        flushed_nil, List.singleton_append, ofList, ofList_toList]

/-- Scanning the space-prefixed remaining items of a list, followed by the
closing paren, completes the innermost open list. -/
theorem scanTail (xs : SList) (hxs : atomsLegalL xs = true) :
    ∀ (cur acc : List SExpr) (S : List (List SExpr)) (tk : List Char) (p : Option Char)
      (suffix : List Char),
    parseRun ⟨cur :: acc :: S, tk, false, false, p⟩ (serTail xs ++ (')' :: suffix)) =
      parseRun ⟨(acc ++ [SExpr.list (ofList (flushed cur tk ++ xs.toList))]) :: S, [],
        false, false, some ')'⟩ suffix := by
  match xs with
  | .nil =>
    intro cur acc S tk p suffix
    have h1 : parseStep ⟨cur :: acc :: S, tk, false, false, p⟩ ')' =
        some ⟨(acc ++ [SExpr.list (ofList (flushed cur tk))]) :: S, [], false, false,
          some ')'⟩ := by
      simp [parseStep, flushTop_cons]
    rw [serTail, List.nil_append, parseRun_step h1, SList.toList, List.append_nil]
  | .cons x rest =>
    intro cur acc S tk p suffix
    rw [atomsLegalL_cons_iff] at hxs
    have h1 : parseStep ⟨cur :: acc :: S, tk, false, false, p⟩ ' ' =
        some ⟨flushed cur tk :: acc :: S, [], false, false, some ' '⟩ := by
      simp [parseStep, flushTop_cons, isScanWs]
    rw [serTail, List.cons_append, parseRun_step h1, List.append_assoc]
    match x with
    | .atom a =>
      rw [show ser (SExpr.atom a) = a.data from rfl,
        scanAtom a.data hxs.1 (flushed cur tk :: acc :: S) (some ' ') _ (by simp),
        scanTail rest hxs.2 (flushed cur tk) acc S a.data _ suffix,
        flushed_legal (flushed cur tk) a hxs.1, SList.toList, List.append_assoc,
        List.singleton_append]
    | .list m =>
      rw [scanTree (.list m) hxs.1 (by simp [isListNode]) (flushed cur tk) (acc :: S)
          (some ' ') _,
        scanTail rest hxs.2 (flushed cur tk ++ [SExpr.list m]) acc S [] (some ')') suffix,
        flushed_nil, SList.toList, List.append_assoc, List.singleton_append]
end

theorem noSpecialL_cons_iff (x : SExpr) (xs : SList) :
    noSpecialL (.cons x xs) = true ↔ (noSpecialE x = true ∧ noSpecialL xs = true) := by
  rw [noSpecialL, Bool.and_eq_true]

theorem noSpecialE_shape (x : SExpr) (items : SList) :
    noSpecialE (.list (.cons x items)) = true ↔
      (headNotSpecial (.cons x items) = true ∧
        (noSpecialE x = true ∧ noSpecialL items = true)) := by
  rw [noSpecialE, noSpecialL, Bool.and_eq_true, Bool.and_eq_true]

theorem headNotSpecial_ne (x : SExpr) (items : SList)
    (hh : headNotSpecial (.cons x items) = true) :
    ¬x = SExpr.atom "fp_lib_table" ∧ ¬x = SExpr.atom "lib" ∧
      ¬x = SExpr.atom "kicad_symbol_lib" ∧ ¬x = SExpr.atom "symbol" := by
  match x with
  | .list m =>
    exact ⟨fun h => SExpr.noConfusion h, fun h => SExpr.noConfusion h,
      fun h => SExpr.noConfusion h, fun h => SExpr.noConfusion h⟩
  | .atom kw =>
    rw [headNotSpecial, Bool.not_eq_true', decide_eq_false_iff_not] at hh
    simp only [specialKws, List.mem_cons, List.mem_singleton, not_or] at hh
    refine ⟨fun h => ?_, fun h => ?_, fun h => ?_, fun h => ?_⟩ <;>
      [exact hh.1 (by injection h); exact hh.2.1 (by injection h);
       exact hh.2.2.1 (by injection h); exact hh.2.2.2.1 (by injection h)]

mutual
/-- On trees free of special-layout keywords, `to_string` is the compact
canonical serialization. -/
theorem toStr_plain (t : SExpr) (h : noSpecialE t = true) (i : Nat) :
    toStr t i = some (ser t) := by
  match t with
  | .atom a => rfl
  | .list .nil => rfl
  | .list (.cons x items) =>
    obtain ⟨hh, hx, hitems⟩ := (noSpecialE_shape x items).mp h
    obtain ⟨h1, h2, h3, h4⟩ := headNotSpecial_ne x items hh
    rw [toStr, if_neg h1, if_neg h2, if_neg h3, if_neg h4,
      toStr_plain x hx i, tsSpaced_plain items hitems i, ser]
    simp

theorem tsSpaced_plain (l : SList) (h : noSpecialL l = true) (i : Nat) :
    tsSpaced l i = some (serTail l) := by
  match l with
  | .nil => rfl
  | .cons x xs =>
    obtain ⟨hx, hxs⟩ := (noSpecialL_cons_iff x xs).mp h
    rw [tsSpaced, toStr_plain x hx i, tsSpaced_plain xs hxs i, serTail]
    rfl
end

theorem ser_list_concat (x : SExpr) (items : SList) :
    ser (.list (.cons x items)) = ('(' :: (ser x ++ serTail items)) ++ [')'] := by
  rw [ser]
  simp [List.append_assoc]

theorem pyStrip_ser_list (l : SList) : pyStrip (ser (.list l)) = ser (.list l) := by
  refine pyStrip_eq_self (fun c hc => ?_) (fun c hc => ?_)
  · match l with
    | .nil =>
      rw [show ser (SExpr.list .nil) = ['(', ')'] from rfl] at hc
      rw [List.head?_cons, Option.some_inj] at hc
      subst hc
      rfl
    | .cons x items =>
      rw [ser, List.head?_cons, Option.some_inj] at hc
      subst hc
      rfl
  · match l with
    | .nil =>
      rw [show ser (SExpr.list .nil) = ['(', ')'] from rfl] at hc
      have : (['(', ')'] : List Char).getLast? = some ')' := rfl
      rw [this, Option.some_inj] at hc
      subst hc
      rfl
    | .cons x items =>
      rw [ser_list_concat, List.getLast?_concat, Option.some_inj] at hc
      subst hc
      rfl

/-- Full round trip on a legal-atom, special-keyword-free list tree:
`to_string` succeeds with the compact text, and `parse` of that text
rebuilds the tree. -/
theorem roundtrip_core (t : SExpr) (hA : atomsLegalE t = true)
    (hN : noSpecialE t = true) (hL : isListNode t = true) :
    to_string t 0 = some ⟨ser t⟩ ∧ parse ⟨ser t⟩ = some t := by
  constructor
  · rw [to_string, toStr_plain t hN 0]
    rfl
  · match t, hL with
    | .list l, _ =>
      show parseCore (pyStrip (ser (.list l))) = some (SExpr.list l)
      rw [pyStrip_ser_list l, parseCore]
      have hrun := scanTree (.list l) hA (by simp [isListNode]) [] [] none []
      rw [List.append_nil] at hrun
      rw [show initState = (⟨[] :: [], [], false, false, none⟩ : PState) from rfl, hrun]
      rfl

/-! ## Strip idempotence (claim C10) -/

theorem dropWhile_head_not (p : Char → Bool) (l : List Char) (a : Char) (as : List Char)
    (h : l.dropWhile p = a :: as) : p a = false := by
  induction l with
  | nil => cases h
  | cons c rest ih =>
    rw [List.dropWhile_cons] at h
    by_cases hc : p c = true
    · rw [if_pos hc] at h
      exact ih h
    · rw [if_neg hc] at h
      injection h with h1 h2
      subst h1
      simpa using hc

theorem pyStrip_idem (l : List Char) : pyStrip (pyStrip l) = pyStrip l := by
  have h0 : ∀ x : List Char, pyStrip x = List.rdropWhile isPyWs (List.dropWhile isPyWs x) :=
    fun _ => rfl
  rw [h0, h0]
  have h1 : List.dropWhile isPyWs (List.rdropWhile isPyWs (List.dropWhile isPyWs l)) =
      List.rdropWhile isPyWs (List.dropWhile isPyWs l) := by
    cases hr : List.rdropWhile isPyWs (List.dropWhile isPyWs l) with
    | nil => rfl
    | cons a as =>
      obtain ⟨t, ht⟩ := List.rdropWhile_prefix isPyWs (List.dropWhile isPyWs l)
      rw [hr] at ht
      have hd : List.dropWhile isPyWs l = a :: (as ++ t) := by rw [← ht]; rfl
      have hna := dropWhile_head_not isPyWs l a (as ++ t) hd
      rw [List.dropWhile_cons, if_neg (by simp [hna])]
  rw [h1, List.rdropWhile_idempotent]

theorem pyStripS_idem (s : String) : pyStripS (pyStripS s) = pyStripS s := by
  unfold pyStripS
  rw [show (⟨pyStrip s.data⟩ : String).data = pyStrip s.data from rfl, pyStrip_idem]

/-! ## Reference classification (`DataSheetLocalizer._classify_datasheet_ref`,
src/plugins/data_sheet_localizer.py lines 122–148), claims C3 and C6.

Python `set` becomes `Finset String`; the five verdict strings are kept
verbatim.  `value.lower()` is modelled with `Char.toLower` (ASCII). -/

/-- `DataSheetLocalizer._is_web_url` (lines 113–121). -/
def isWebUrl (ref : String) : Bool :=
  ref.startsWith "http://" || ref.startsWith "https://"

/-- `value.lower().endswith('.pdf')`. -/
def pdfSuffix (value : String) : Bool :=
  (String.map Char.toLower value).endsWith ".pdf"

/-- `${KIPRJMOD}` (`constants.ENV_VAR_KIPRJMOD` interpolated at line 141). -/
def kiprjmodPrefix : String := "${KIPRJMOD}"

/-- `DataSheetLocalizer._classify_datasheet_ref`, returning the verdict
string and the updated `seen` set. -/
def classify (value : String) (seen : Finset String) : String × Finset String :=
  if value = "" ∨ value = "~" then ("empty", seen)
  else if value.startsWith kiprjmodPrefix then ("localised", seen)
  else if ¬isWebUrl value ∧ ¬pdfSuffix value then ("non_pdf", seen)
  else if value ∈ seen then ("duplicate", seen)
  else ("add", insert value seen)

/-- A value that passes the blank, already-localised and format checks. -/
def acceptedRef (value : String) : Bool :=
  !(decide (value = "" ∨ value = "~")) && !(value.startsWith kiprjmodPrefix) &&
    (isWebUrl value || pdfSuffix value)

/-- Classify a whole list left to right, returning the verdict list and the
final seen set. -/
def classifyScan : List String → Finset String → List String × Finset String
  | [], seen => ([], seen)
  | v :: rest, seen =>
    ((classify v seen).1 :: (classifyScan rest (classify v seen).2).1,
      (classifyScan rest (classify v seen).2).2)

theorem classify_verdict_mem (v : String) (s : Finset String) :
    (classify v s).1 ∈ ["add", "empty", "localised", "non_pdf", "duplicate"] := by
  unfold classify
  split_ifs <;> simp

theorem classify_of_accepted {v : String} (h : acceptedRef v = true) (s : Finset String) :
    classify v s = if v ∈ s then ("duplicate", s) else ("add", insert v s) := by
  simp only [acceptedRef, Bool.and_eq_true, Bool.not_eq_true', decide_eq_false_iff_not,
    Bool.or_eq_true] at h
  unfold classify
  rw [if_neg h.1.1, if_neg (by simp [h.1.2]), if_neg (by rcases h.2 with h2 | h2 <;> simp [h2])]

theorem classify_of_not_accepted {v : String} (h : acceptedRef v = false) (s : Finset String) :
    (classify v s).1 ≠ "add" ∧ (classify v s).2 = s := by
  unfold classify
  split_ifs with h1 h2 h3 h4
  · exact ⟨by simp, rfl⟩
  · exact ⟨by simp, rfl⟩
  · exact ⟨by simp, rfl⟩
  · exact ⟨by simp, rfl⟩
  · exfalso
    have ht : acceptedRef v = true := by
      simp only [acceptedRef, Bool.and_eq_true, Bool.not_eq_true', decide_eq_false_iff_not,
        Bool.or_eq_true]
      refine ⟨⟨h1, by simpa using h2⟩, ?_⟩
      by_cases hw : isWebUrl v = true
      · exact Or.inl hw
      · right
        by_cases hp : pdfSuffix v = true
        · exact hp
        · exact absurd ⟨by simp [hw], by simp [hp]⟩ h3
    rw [ht] at h
    cases h

theorem classify_seen_mono (v : String) (s : Finset String) : s ⊆ (classify v s).2 := by
  unfold classify
  split_ifs <;> simp [Finset.subset_insert]

theorem classifyScan_cons_fst (v : String) (rest : List String) (s : Finset String) :
    (classifyScan (v :: rest) s).1 =
      (classify v s).1 :: (classifyScan rest (classify v s).2).1 := rfl

theorem classifyScan_cons_snd (v : String) (rest : List String) (s : Finset String) :
    (classifyScan (v :: rest) s).2 = (classifyScan rest (classify v s).2).2 := rfl

theorem classifyScan_seen_mono (l : List String) :
    ∀ s : Finset String, s ⊆ (classifyScan l s).2 := by
  induction l with
  | nil => intro s; exact Finset.Subset.refl s
  | cons v rest ih =>
    intro s
    rw [classifyScan_cons_snd]
    exact (classify_seen_mono v s).trans (ih (classify v s).2)

theorem classifyScan_seen_eq (l : List String) :
    ∀ s : Finset String, (classifyScan l s).2 = s ∪ (l.filter acceptedRef).toFinset := by
  induction l with
  | nil => intro s; simp [classifyScan]
  | cons v rest ih =>
    intro s
    rw [classifyScan_cons_snd, ih]
    cases hacc : acceptedRef v with
    | false =>
      have hne : ¬(acceptedRef v = true) := by rw [hacc]; exact Bool.false_ne_true
      rw [(classify_of_not_accepted hacc s).2, List.filter_cons, if_neg hne]
    | true =>
      rw [classify_of_accepted hacc s, List.filter_cons]
      by_cases hv : v ∈ s
      · rw [if_pos hv, if_pos hacc]
        dsimp only
        rw [List.toFinset_cons, Finset.union_insert,
          Finset.insert_eq_self.mpr (Finset.mem_union_left _ hv)]
      · rw [if_neg hv, if_pos hacc]
        dsimp only
        rw [List.toFinset_cons, Finset.union_insert, Finset.insert_union]

theorem classifyScan_dup (l : List String) :
    ∀ (s1 s2 : Finset String), (classifyScan l s1).2 ⊆ s2 →
    ∀ i, (classifyScan l s1).1.get? i = some "add" →
      (classifyScan l s2).1.get? i = some "duplicate" := by
  induction l with
  | nil =>
    intro s1 s2 _ i h
    simp [classifyScan] at h
  | cons v rest ih =>
    intro s1 s2 hsub i h
    rw [classifyScan_cons_snd] at hsub
    have hmono1 : (classify v s1).2 ⊆ (classifyScan rest (classify v s1).2).2 :=
      classifyScan_seen_mono rest _
    match i with
    | 0 =>
      rw [classifyScan_cons_fst, List.get?_cons_zero, Option.some_inj] at h
      rw [classifyScan_cons_fst, List.get?_cons_zero]
      cases hacc : acceptedRef v with
      | false => exact absurd h (classify_of_not_accepted hacc s1).1
      | true =>
        have heq := classify_of_accepted hacc s1
        have hv1 : v ∉ s1 := by
          intro hv
          rw [heq, if_pos hv] at h
          dsimp only at h
          exact absurd h (by decide)
        have hvs2 : v ∈ s2 := by
          refine hsub (hmono1 ?_)
          rw [heq, if_neg hv1]
          exact Finset.mem_insert_self v s1
        rw [classify_of_accepted hacc s2, if_pos hvs2]
    | (i + 1) =>
      rw [classifyScan_cons_fst, List.get?_cons_succ] at h
      rw [classifyScan_cons_fst, List.get?_cons_succ]
      exact ih (classify v s1).2 (classify v s2).2 (hsub.trans (classify_seen_mono v s2)) i h

theorem classifyScan_not_add_of_mem (l : List String) :
    ∀ (s : Finset String) (k : Nat) (v : String), v ∈ s → l.get? k = some v →
      (classifyScan l s).1.get? k ≠ some "add" := by
  induction l with
  | nil => intro s k v _ hk; simp at hk
  | cons w rest ih =>
    intro s k v hv hk
    match k with
    | 0 =>
      rw [List.get?_cons_zero, Option.some_inj] at hk
      subst hk
      rw [classifyScan_cons_fst, List.get?_cons_zero]
      cases hacc : acceptedRef w with
      | false =>
        intro hcon
        exact (classify_of_not_accepted hacc s).1 (Option.some_inj.mp hcon)
      | true =>
        rw [classify_of_accepted hacc s, if_pos hv]
        simp
    | (k + 1) =>
      rw [List.get?_cons_succ] at hk
      rw [classifyScan_cons_fst, List.get?_cons_succ]
      exact ih (classify w s).2 k v (classify_seen_mono w s hv) hk

theorem classifyScan_not_add_of_not_accepted (l : List String) :
    ∀ (s : Finset String) (k : Nat) (v : String), acceptedRef v = false → l.get? k = some v →
      (classifyScan l s).1.get? k ≠ some "add" := by
  induction l with
  | nil => intro s k v _ hk; simp at hk
  | cons w rest ih =>
    intro s k v hacc hk
    match k with
    | 0 =>
      rw [List.get?_cons_zero, Option.some_inj] at hk
      subst hk
      rw [classifyScan_cons_fst, List.get?_cons_zero]
      intro hcon
      exact (classify_of_not_accepted hacc s).1 (Option.some_inj.mp hcon)
    | (k + 1) =>
      rw [List.get?_cons_succ] at hk
      rw [classifyScan_cons_fst, List.get?_cons_succ]
      exact ih (classify w s).2 k v hacc hk

/-- Within one scan, any occurrence of a value that also occurs earlier in
the list never receives the `add` verdict. -/
theorem classifyScan_later_dup (l : List String) :
    ∀ (s : Finset String) (i j : Nat) (v : String), i < j →
      l.get? i = some v → l.get? j = some v →
      (classifyScan l s).1.get? j ≠ some "add" := by
  induction l with
  | nil => intro s i j v _ hi _; simp at hi
  | cons w rest ih =>
    intro s i j v hij hi hj
    match i, j with
    | 0, 0 => exact absurd hij (by omega)
    | (i + 1), 0 => exact absurd hij (by omega)
    | 0, (j + 1) =>
      rw [List.get?_cons_zero, Option.some_inj] at hi
      subst hi
      rw [List.get?_cons_succ] at hj
      rw [classifyScan_cons_fst, List.get?_cons_succ]
      cases hacc : acceptedRef w with
      | false => exact classifyScan_not_add_of_not_accepted rest _ j w hacc hj
      | true =>
        have hvm : w ∈ (classify w s).2 := by
          rw [classify_of_accepted hacc s]
          by_cases hvs : w ∈ s
          · rw [if_pos hvs]; exact hvs
          · rw [if_neg hvs]; exact Finset.mem_insert_self w s
        exact classifyScan_not_add_of_mem rest _ j w hvm hj
    | (i + 1), (j + 1) =>
      rw [List.get?_cons_succ] at hi hj
      rw [classifyScan_cons_fst, List.get?_cons_succ]
      exact ih (classify w s).2 i j v (by omega) hi hj

/-! ## Literal text substitution
(`BaseLocalizer.replace_references_in_content`, src/plugins/base_localizer.py
lines 176–194; the same loop appears in
`DataSheetLocalizer._update_file_references`, lines 564–575), claim C5.

Python `str.replace` scans left to right replacing non-overlapping
occurrences.  The recursion consumes at least one character per step, so a
fuel of the input length makes it structural (and hence kernel-evaluable);
the zero-fuel arm is unreachable for that fuel. -/

/-- Python `old in content`. -/
def containsSub (old : List Char) : List Char → Bool
  | [] => old.isEmpty
  | c :: rest => old.isPrefixOf (c :: rest) || containsSub old rest

/-- One pass of `str.replace` for nonempty `old`, fuelled. -/
def replaceFuel (old new : List Char) : Nat → List Char → List Char
  | _, [] => []
  | 0, l => l
  | fuel + 1, c :: rest =>
    if old.isPrefixOf (c :: rest) ∧ old ≠ [] then
      new ++ replaceFuel old new fuel ((c :: rest).drop old.length)
    else c :: replaceFuel old new fuel rest

/-- Python `s.replace(old, new)`; an empty `old` interleaves `new` around
every character, as in Python. -/
def pyReplace (s old new : List Char) : List Char :=
  if old = [] then new ++ s.flatMap (fun c => c :: new)
  else replaceFuel old new s.length s

/-- Python `s.count(old)` (non-overlapping), fuelled the same way. -/
def countFuel (old : List Char) : Nat → List Char → Nat
  | _, [] => if old = [] then 1 else 0
  | 0, _ => 0
  | fuel + 1, c :: rest =>
    if old.isPrefixOf (c :: rest) ∧ old ≠ [] then
      1 + countFuel old fuel ((c :: rest).drop old.length)
    else (if old = [] then 1 else 0) + countFuel old fuel rest

/-- Python `s.count(old)`. -/
def pyCount (s old : List Char) : Nat := countFuel old s.length s

/-- `BaseLocalizer.replace_references_in_content`: fold the replacement
pairs over the content, counting occurrences before each replacement. -/
def replaceReferencesInContent (content : List Char)
    (repls : List (List Char × List Char)) : Nat × List Char :=
  repls.foldl
    (fun acc p =>
      if containsSub p.1 acc.2 then (acc.1 + pyCount acc.2 p.1, pyReplace acc.2 p.1 p.2)
      else acc)
    (0, content)

theorem replaceFuel_no_occurrence (old new : List Char) :
    ∀ (fuel : Nat) (l : List Char), containsSub old l = false →
      replaceFuel old new fuel l = l := by
  intro fuel
  induction fuel with
  | zero => intro l _; cases l <;> rfl
  | succ fuel ih =>
    intro l h
    cases l with
    | nil => rfl
    | cons c rest =>
      rw [containsSub, Bool.or_eq_false_iff] at h
      rw [replaceFuel, if_neg (fun hcon => by rw [hcon.1] at h; exact absurd h.1 (by simp)),
        ih rest h.2]

theorem pyReplace_no_occurrence (l old new : List Char) (h : containsSub old l = false) :
    pyReplace l old new = l := by
  unfold pyReplace
  by_cases ho : old = []
  · exfalso
    subst ho
    cases l with
    | nil => exact absurd h (by decide)
    | cons c rest =>
      rw [containsSub, Bool.or_eq_false_iff] at h
      exact absurd h.1 (by simp [List.isPrefixOf])
  · rw [if_neg ho, replaceFuel_no_occurrence old new l.length l h]

theorem replaceReferences_stable (repls : List (List Char × List Char)) (c : List Char)
    (h : ∀ p ∈ repls, containsSub p.1 c = false) :
    ∀ n : Nat,
      repls.foldl
        (fun acc p =>
          if containsSub p.1 acc.2 then (acc.1 + pyCount acc.2 p.1, pyReplace acc.2 p.1 p.2)
          else acc) (n, c) = (n, c) := by
  induction repls with
  | nil => intro n; rfl
  | cons p rest ih =>
    intro n
    rw [List.foldl_cons,
      if_neg (by rw [h p (List.mem_cons_self p rest)]; exact Bool.false_ne_true)]
    exact ih (fun q hq => h q (List.mem_cons_of_mem p hq)) n

/-! ## The LRU parse cache (`SExpressionParser.__init__`/`parse`,
lines 76–103 and 154–159), claims C4 and C10.

The `OrderedDict` is an association list in recency order, oldest first.
`move_to_end` removes the entry and appends it; `popitem(last=False)` pops
the head (raising `KeyError`, modelled as a failed call, when empty). -/

structure Parser where
  cache : List (String × SExpr)
  maxCacheSize : Nat
  deriving DecidableEq

/-- `text in self.cache` / `self.cache[text]`. -/
def lookupCache : List (String × SExpr) → String → Option SExpr
  | [], _ => none
  | (k, v) :: rest, key => if k = key then some v else lookupCache rest key

/-- Remove the entry with the given key (keys are unique in an
`OrderedDict`). -/
def removeKey : List (String × SExpr) → String → List (String × SExpr)
  | [], _ => []
  | (k, v) :: rest, key =>
    if k = key then removeKey rest key else (k, v) :: removeKey rest key

/-- One `parse` call through the cache (lines 94–159): strip, hit path with
`move_to_end`, or miss path with eviction, core parse, and insertion.  The
first component is `none` when the call raises (surplus `)` in the text, or
`popitem` on an empty cache when `max_cache_size = 0`). -/
def parseCached (p : Parser) (text : String) : Option SExpr × Parser :=
  let key := pyStripS text
  match lookupCache p.cache key with
  | some v => (some v, { p with cache := removeKey p.cache key ++ [(key, v)] })
  | none =>
    if p.cache.length ≥ p.maxCacheSize then
      match p.cache with
      | [] => (none, p)
      | _ :: rest =>
        match parseCore key.data with
        | none => (none, { p with cache := rest })
        | some r => (some r, { p with cache := rest ++ [(key, r)] })
    else
      match parseCore key.data with
      | none => (none, p)
      | some r => (some r, { p with cache := p.cache ++ [(key, r)] })

/-- A sequence of `parse` calls, keeping only the parser state. -/
def runParses (p : Parser) (ts : List String) : Parser :=
  ts.foldl (fun q t => (parseCached q t).2) p

theorem removeKey_length_le (c : List (String × SExpr)) (key : String) :
    (removeKey c key).length ≤ c.length := by
  induction c with
  | nil => exact Nat.le_refl 0
  | cons e rest ih =>
    obtain ⟨k, v⟩ := e
    rw [removeKey]
    by_cases hk : k = key
    · rw [if_pos hk]
      simp only [List.length_cons]
      omega
    · rw [if_neg hk]
      simp only [List.length_cons]
      omega

theorem removeKey_length_lt (c : List (String × SExpr)) (key : String) :
    ∀ v, lookupCache c key = some v → (removeKey c key).length + 1 ≤ c.length := by
  induction c with
  | nil => intro v h; cases h
  | cons e rest ih =>
    obtain ⟨k, w⟩ := e
    intro v h
    rw [lookupCache] at h
    rw [removeKey]
    by_cases hk : k = key
    · rw [if_pos hk]
      have := removeKey_length_le rest key
      simp only [List.length_cons]
      omega
    · rw [if_neg hk] at h ⊢
      have := ih v h
      simp only [List.length_cons]
      omega

theorem parseCached_cache_le {p : Parser} (hp : p.cache.length ≤ p.maxCacheSize)
    (t : String) : ((parseCached p t).2).cache.length ≤ p.maxCacheSize := by
  unfold parseCached
  cases hlook : lookupCache p.cache (pyStripS t) with
  | some v =>
    simp only [hlook]
    have := removeKey_length_lt p.cache (pyStripS t) v hlook
    simp only [List.length_append, List.length_cons, List.length_nil]
    omega
  | none =>
    simp only [hlook]
    split_ifs with hful
    · cases hc : p.cache with
      | nil => simpa using hp
      | cons e rest =>
        have hlen : rest.length + 1 = p.cache.length := by rw [hc]; rfl
        cases hcore : parseCore (pyStripS t).data with
        | none =>
          simp only []
          omega
        | some r =>
          simp only [List.length_append, List.length_cons, List.length_nil]
          omega
    · cases hcore : parseCore (pyStripS t).data with
      | none => simpa using hp
      | some r =>
        simp only [List.length_append, List.length_cons, List.length_nil]
        omega

/-- Claim C4, part 1: starting from an empty cache, no sequence of `parse`
calls pushes the cache beyond the configured maximum. -/
theorem runParses_cache_le (m : Nat) (ts : List String) :
    (runParses ⟨[], m⟩ ts).cache.length ≤ m := by
  suffices h : ∀ (p : Parser) , p.cache.length ≤ p.maxCacheSize →
      (runParses p ts).cache.length ≤ p.maxCacheSize ∧
      (runParses p ts).maxCacheSize = p.maxCacheSize by
    exact (h ⟨[], m⟩ (by simp)).1
  induction ts with
  | nil => intro p hp; exact ⟨hp, rfl⟩
  | cons t rest ih =>
    intro p hp
    have hstep : runParses p (t :: rest) = runParses (parseCached p t).2 rest := rfl
    have hmax : (parseCached p t).2.maxCacheSize = p.maxCacheSize := by
      unfold parseCached
      cases hlook : lookupCache p.cache (pyStripS t) with
      | some v => simp only [hlook]
      | none =>
        simp only [hlook]
        split_ifs with hful
        · cases hc : p.cache with
          | nil => rfl
          | cons e r =>
            cases hcore : parseCore (pyStripS t).data with
            | none => rfl
            | some x => rfl
        · cases hcore : parseCore (pyStripS t).data with
          | none => rfl
          | some x => rfl
    have h1 := parseCached_cache_le hp t
    rw [← hmax] at h1
    obtain ⟨ha, hb⟩ := ih (parseCached p t).2 h1
    rw [hstep]
    rw [hmax] at ha hb
    exact ⟨ha, hb⟩

theorem lookupCache_append (a b : List (String × SExpr)) (key : String) :
    lookupCache (a ++ b) key =
      match lookupCache a key with
      | some v => some v
      | none => lookupCache b key := by
  induction a with
  | nil => rfl
  | cons e rest ih =>
    obtain ⟨k, v⟩ := e
    rw [List.cons_append, lookupCache, lookupCache]
    by_cases hk : k = key
    · rw [if_pos hk, if_pos hk]
    · rw [if_neg hk, if_neg hk, ih]

theorem lookupCache_eq_none_iff (c : List (String × SExpr)) (key : String) :
    lookupCache c key = none ↔ key ∉ c.map Prod.fst := by
  induction c with
  | nil => simp [lookupCache]
  | cons e rest ih =>
    obtain ⟨k, v⟩ := e
    rw [lookupCache]
    by_cases hk : k = key
    · rw [if_pos hk]
      simp [hk]
    · rw [if_neg hk, ih]
      simp only [List.map_cons, List.mem_cons]
      constructor
      · intro h hcon
        rcases hcon with hcon | hcon
        · exact hk hcon.symm
        · exact h hcon
      · intro h hcon
        exact h (Or.inr hcon)

theorem removeKey_of_lookup_none (c : List (String × SExpr)) (key : String)
    (h : lookupCache c key = none) : removeKey c key = c := by
  induction c with
  | nil => rfl
  | cons e rest ih =>
    obtain ⟨k, v⟩ := e
    rw [lookupCache] at h
    rw [removeKey]
    by_cases hk : k = key
    · rw [if_pos hk] at h
      cases h
    · rw [if_neg hk] at h
      rw [if_neg hk, ih h]

theorem parseCached_max (p : Parser) (t : String) :
    (parseCached p t).2.maxCacheSize = p.maxCacheSize := by
  unfold parseCached
  cases hlook : lookupCache p.cache (pyStripS t) with
  | some v => simp only [hlook]
  | none =>
    simp only [hlook]
    split_ifs with hful
    · cases hc : p.cache with
      | nil => rfl
      | cons e r =>
        cases hcore : parseCore (pyStripS t).data with
        | none => rfl
        | some x => rfl
    · cases hcore : parseCore (pyStripS t).data with
      | none => rfl
      | some x => rfl

theorem runParses_max (ts : List String) :
    ∀ p : Parser, (runParses p ts).maxCacheSize = p.maxCacheSize := by
  induction ts with
  | nil => intro p; rfl
  | cons t rest ih =>
    intro p
    have hstep : runParses p (t :: rest) = runParses (parseCached p t).2 rest := rfl
    rw [hstep, ih, parseCached_max]

/-- The cache value stored for a successfully parsed text. -/
def cacheEntry (t : String) : String × SExpr :=
  (pyStripS t, (parseCore (pyStripS t).data).getD (SExpr.list .nil))

/-- Claim C4, part 2 (filling): parsing fresh, distinct, well-formed texts
while below capacity appends their entries in call order. -/
theorem runParses_fill (ts : List String) :
    ∀ (c : List (String × SExpr)) (m : Nat),
    c.length + ts.length ≤ m →
    (∀ t ∈ ts, lookupCache c (pyStripS t) = none) →
    (ts.map pyStripS).Nodup →
    (∀ t ∈ ts, parseCore (pyStripS t).data ≠ none) →
    (runParses ⟨c, m⟩ ts).cache = c ++ ts.map cacheEntry := by
  induction ts with
  | nil => intro c m _ _ _ _; simp [runParses]
  | cons t rest ih =>
    intro c m hlen hfresh hnodup hok
    have hstep : runParses ⟨c, m⟩ (t :: rest) = runParses (parseCached ⟨c, m⟩ t).2 rest := rfl
    have hlook := hfresh t (List.mem_cons_self t rest)
    obtain ⟨r, hr⟩ : ∃ r, parseCore (pyStripS t).data = some r := by
      cases hcore : parseCore (pyStripS t).data with
      | none => exact absurd hcore (hok t (List.mem_cons_self t rest))
      | some r => exact ⟨r, rfl⟩
    have hroom : ¬((⟨c, m⟩ : Parser).cache.length ≥ (⟨c, m⟩ : Parser).maxCacheSize) := by
      simp only [List.length_cons] at hlen
      simp only [not_le]
      show c.length < m
      omega
    have hcache : (parseCached ⟨c, m⟩ t).2 = ⟨c ++ [(pyStripS t, r)], m⟩ := by
      unfold parseCached
      simp only [hlook, if_neg hroom, hr]
    rw [hstep, hcache]
    rw [List.map_cons] at hnodup
    have hnd := List.nodup_cons.mp hnodup
    rw [ih (c ++ [(pyStripS t, r)]) m ?_ ?_ hnd.2 ?_]
    · have hentry : cacheEntry t = (pyStripS t, r) := by
        unfold cacheEntry
        rw [hr]
        rfl
      rw [List.map_cons, hentry, List.append_assoc, List.singleton_append]
    · simp only [List.length_append, List.length_cons, List.length_nil] at hlen ⊢
      omega
    · intro u hu
      rw [lookupCache_append]
      rw [hfresh u (List.mem_cons_of_mem t hu)]
      show lookupCache [(pyStripS t, r)] (pyStripS u) = none
      rw [lookupCache, if_neg, lookupCache]
      intro hcon
      exact hnd.1 (hcon ▸ List.mem_map_of_mem pyStripS hu)
    · intro u hu
      exact hok u (List.mem_cons_of_mem t hu)

/-- Claim C4, part 3 (LRU eviction): from an empty cache, parsing
`max_size + 1` distinct well-formed texts evicts exactly the first
(least-recently-used) entry; the cache keys are the last `max_size` texts
in order. -/
theorem runParses_evict (m : Nat) (hm : 1 ≤ m) (ts : List String)
    (hlen : ts.length = m + 1)
    (hnodup : (ts.map pyStripS).Nodup)
    (hok : ∀ t ∈ ts, parseCore (pyStripS t).data ≠ none) :
    (runParses ⟨[], m⟩ ts).cache.map Prod.fst = (ts.map pyStripS).drop 1 := by
  have hne : ts ≠ [] := by
    intro h
    rw [h] at hlen
    simp at hlen
  obtain ⟨init, last, hts⟩ : ∃ init last, ts = init ++ [last] :=
    ⟨ts.dropLast, ts.getLast hne, (List.dropLast_append_getLast hne).symm⟩
  subst hts
  have hil : init.length = m := by
    rw [List.length_append, List.length_cons, List.length_nil] at hlen
    omega
  obtain ⟨i0, irest, hinit⟩ : ∃ i0 irest, init = i0 :: irest := by
    cases init with
    | nil => rw [← hil] at hm; cases hm
    | cons a as => exact ⟨a, as, rfl⟩
  subst hinit
  have hinodup : ((i0 :: irest).map pyStripS).Nodup ∧
      pyStripS last ∉ (i0 :: irest).map pyStripS := by
    rw [List.map_append] at hnodup
    have h1 := List.Nodup.of_append_left hnodup
    have h2 := List.disjoint_of_nodup_append hnodup
    exact ⟨h1, fun hmem => h2 hmem (by simp)⟩
  have hfill := runParses_fill (i0 :: irest) [] m (by simp [hil]) (by intro u _; rfl)
    hinodup.1 (by intro u hu; exact hok u (List.mem_append_left _ hu))
  rw [List.nil_append] at hfill
  have happ : runParses ⟨[], m⟩ ((i0 :: irest) ++ [last]) =
      (parseCached (runParses ⟨[], m⟩ (i0 :: irest)) last).2 := by
    unfold runParses
    rw [List.foldl_append]
    rfl
  have hmax : (runParses ⟨[], m⟩ (i0 :: irest)).maxCacheSize = m :=
    runParses_max (i0 :: irest) ⟨[], m⟩
  obtain ⟨r, hr⟩ : ∃ r, parseCore (pyStripS last).data = some r := by
    cases hcore : parseCore (pyStripS last).data with
    | none => exact absurd hcore (hok last (List.mem_append_right _ (by simp)))
    | some r => exact ⟨r, rfl⟩
  have hlookl : lookupCache ((i0 :: irest).map cacheEntry) (pyStripS last) = none := by
    rw [lookupCache_eq_none_iff]
    intro hmem
    refine hinodup.2 ?_
    have hmm : ((i0 :: irest).map cacheEntry).map Prod.fst = (i0 :: irest).map pyStripS := by
      rw [List.map_map]
      rfl
    rwa [hmm] at hmem
  have hq : runParses ⟨[], m⟩ (i0 :: irest) = ⟨(i0 :: irest).map cacheEntry, m⟩ := by
    cases hqq : runParses ⟨[], m⟩ (i0 :: irest) with
    | mk cc mm =>
      rw [hqq] at hfill hmax
      simp only at hfill hmax
      rw [hfill, hmax]
  have hful : (⟨(i0 :: irest).map cacheEntry, m⟩ : Parser).cache.length ≥
      (⟨(i0 :: irest).map cacheEntry, m⟩ : Parser).maxCacheSize := by
    show ((i0 :: irest).map cacheEntry).length ≥ m
    rw [List.length_map, hil]
  have hstep : (parseCached ⟨(i0 :: irest).map cacheEntry, m⟩ last).2 =
      ⟨(irest.map cacheEntry) ++ [(pyStripS last, r)], m⟩ := by
    unfold parseCached
    simp only [List.map_cons] at hlookl hful ⊢
    simp only [hlookl, if_pos hful, hr]
  rw [happ, hq, hstep]
  dsimp only
  rw [List.map_append, List.map_map,
    show Prod.fst ∘ cacheEntry = pyStripS from funext fun u => rfl]
  simp

/-- Claim C4, part 4 (recency refresh): with a full cache, re-accessing the
oldest entry and then parsing a fresh text evicts the second-oldest entry,
not the refreshed one, which survives at the most-recent end. -/
theorem parseCached_refresh (m : Nat) (k : String) (v : SExpr) (e : String × SExpr)
    (rest : List (String × SExpr)) (t : String) (r : SExpr)
    (hm : ((k, v) :: e :: rest).length = m)
    (hk : pyStripS k = k)
    (hkuniq : lookupCache (e :: rest) k = none)
    (hfresh : lookupCache ((k, v) :: e :: rest) (pyStripS t) = none)
    (hok : parseCore (pyStripS t).data = some r) :
    (runParses ⟨(k, v) :: e :: rest, m⟩ [k, t]).cache =
      rest ++ [(k, v), (pyStripS t, r)] := by
  have hlook1 : lookupCache ((k, v) :: e :: rest) (pyStripS k) = some v := by
    rw [hk, lookupCache, if_pos rfl]
  have hstep1 : (parseCached ⟨(k, v) :: e :: rest, m⟩ k).2 =
      ⟨e :: rest ++ [(k, v)], m⟩ := by
    unfold parseCached
    simp only [hlook1]
    rw [hk]
    rw [show removeKey ((k, v) :: e :: rest) k = removeKey (e :: rest) k from by
      rw [removeKey, if_pos rfl]]
    rw [removeKey_of_lookup_none (e :: rest) k hkuniq]
  have hlook2 : lookupCache (e :: rest ++ [(k, v)]) (pyStripS t) = none := by
    rw [show e :: rest ++ [(k, v)] = (e :: rest) ++ [(k, v)] from rfl, lookupCache_append]
    rw [show lookupCache (e :: rest) (pyStripS t) = none from ?_]
    · rw [lookupCache]
      rw [if_neg ?_, lookupCache]
      intro hcon
      rw [lookupCache, if_pos hcon] at hfresh
      cases hfresh
    · rw [lookupCache] at hfresh ⊢
      by_cases hke : k = pyStripS t
      · rw [if_pos hke] at hfresh
        cases hfresh
      · rwa [if_neg hke] at hfresh
  have hful2 : ((⟨e :: rest ++ [(k, v)], m⟩ : Parser)).cache.length ≥
      (⟨e :: rest ++ [(k, v)], m⟩ : Parser).maxCacheSize := by
    show (e :: rest ++ [(k, v)]).length ≥ m
    simp only [List.length_cons, List.length_append, List.length_nil] at hm ⊢
    omega
  have hstep2 : (parseCached ⟨e :: rest ++ [(k, v)], m⟩ t).2 =
      ⟨(rest ++ [(k, v)]) ++ [(pyStripS t, r)], m⟩ := by
    unfold parseCached
    simp only [hlook2, if_pos hful2, hok]
    rfl
  show (parseCached (parseCached ⟨(k, v) :: e :: rest, m⟩ k).2 t).2.cache = _
  rw [hstep1, hstep2]
  show (rest ++ [(k, v)]) ++ [(pyStripS t, r)] = rest ++ [(k, v), (pyStripS t, r)]
  rw [List.append_assoc]
  rfl

/-- Claim C4, part 5 (concrete LRU scenario): cache of size 3, five
distinct texts parsed in order; exactly the three most recent remain. -/
theorem lru_concrete :
    (runParses ⟨[], 3⟩ ["(a)", "(b)", "(c)", "(d)", "(e)"]).cache =
      [("(c)", L [.atom "c"]), ("(d)", L [.atom "d"]), ("(e)", L [.atom "e"])] := rfl

/-! ## Structural queries: `find_footprints` (lines 212–238), claim C7.

`node[1].strip('"')` raises `AttributeError` when the element is a list;
that raise is modelled as `none`. -/

/-- Python `':' in s`. -/
def containsColon (l : List Char) : Bool := l.any (· = ':')

/-- Python `s.split(':', 1)`: the parts before and after the first colon. -/
def splitColon : List Char → List Char × List Char
  | [] => ([], [])
  | c :: rest =>
    if c = ':' then ([], rest)
    else ((splitColon rest).1.cons c, (splitColon rest).2)

/-- The footprint pair collected from one matching `property` node
(lines 224–231), with both halves whitespace-stripped and required
nonempty. -/
def fpPair (vv : String) : Finset (String × String) :=
  let fv := stripQuote vv.data
  if containsColon fv then
    if pyStrip (splitColon fv).1 ≠ [] ∧ pyStrip (splitColon fv).2 ≠ [] then
      {(⟨pyStrip (splitColon fv).1⟩, ⟨pyStrip (splitColon fv).2⟩)}
    else ∅
  else ∅

/-- The per-node shape test of `find_footprints.search`, with `none` for the
`AttributeError` on a list where a string is expected. -/
def propCheck : SList → Option (Finset (String × String))
  | .nil => some ∅
  | .cons _ .nil => some ∅
  | .cons _ (.cons _ .nil) => some ∅
  | .cons h (.cons x (.cons y _)) =>
    if h = SExpr.atom "property" then
      match x with
      | .list _ => none
      | .atom a =>
        if stripQuoteS a = "Footprint" then
          match y with
          | .list _ => none
          | .atom vv => some (fpPair vv)
        else some ∅
    else some ∅

mutual
/-- `SExpressionParser.find_footprints`. -/
def findFootprints : SExpr → Option (Finset (String × String))
  | .atom _ => some ∅
  | .list l => do
    let here ← propCheck l
    let sub ← ffItems l
    pure (here ∪ sub)
def ffItems : SList → Option (Finset (String × String))
  | .nil => some ∅
  | .cons x xs => do
    let a ← findFootprints x
    let b ← ffItems xs
    pure (a ∪ b)
end

/-- Shape soundness for `find_footprints`: in every `property`-headed list
of length at least 3, the examined elements are atoms. -/
def fpShapeOk : SList → Bool
  | .nil => true
  | .cons _ .nil => true
  | .cons _ (.cons _ .nil) => true
  | .cons h (.cons x (.cons y _)) =>
    if h = SExpr.atom "property" then
      match x with
      | .list _ => false
      | .atom a =>
        if stripQuoteS a = "Footprint" then
          match y with
          | .list _ => false
          | .atom _ => true
        else true
    else true

mutual
def fpOkE : SExpr → Bool
  | .atom _ => true
  | .list l => fpShapeOk l && fpOkL l
def fpOkL : SList → Bool
  | .nil => true
  | .cons x xs => fpOkE x && fpOkL xs
end

mutual
/-- All nodes of the tree in depth-first preorder. -/
def allNodesE : SExpr → List SExpr
  | .atom a => [.atom a]
  | .list l => .list l :: allNodesL l
def allNodesL : SList → List SExpr
  | .nil => []
  | .cons x xs => allNodesE x ++ allNodesL xs
end

/-- The claim's per-node extraction rule: a list node shaped
`(property "Footprint" "Library:Name" ...)` contributes the split pair;
anything else contributes nothing. -/
def fpExtract : SExpr → Finset (String × String)
  | .atom _ => ∅
  | .list .nil => ∅
  | .list (.cons _ .nil) => ∅
  | .list (.cons _ (.cons _ .nil)) => ∅
  | .list (.cons h (.cons x (.cons y _))) =>
    match x, y with
    | .atom a, .atom vv =>
      if h = SExpr.atom "property" ∧ stripQuoteS a = "Footprint" then fpPair vv else ∅
    | .atom _, .list _ => ∅
    | .list _, .atom _ => ∅
    | .list _, .list _ => ∅

mutual
/-- The union of the extraction rule over every node of the tree. -/
def ffSpecE : SExpr → Finset (String × String)
  | .atom _ => ∅
  | .list l => fpExtract (.list l) ∪ ffSpecL l
def ffSpecL : SList → Finset (String × String)
  | .nil => ∅
  | .cons x xs => ffSpecE x ∪ ffSpecL xs
end

theorem propCheck_of_ok (l : SList) (h : fpShapeOk l = true) :
    propCheck l = some (fpExtract (.list l)) := by
  match l with
  | .nil => rfl
  | .cons h0 .nil => rfl
  | .cons h0 (.cons x .nil) => rfl
  | .cons h0 (.cons x (.cons y rest)) =>
    rw [fpShapeOk.eq_def] at h
    dsimp only at h
    rw [propCheck.eq_def, fpExtract.eq_def]
    dsimp only
    by_cases hprop : h0 = SExpr.atom "property"
    · rw [if_pos hprop] at h ⊢
      match x with
      | .list m => exact Bool.noConfusion h
      | .atom a =>
        dsimp only at h ⊢
        by_cases hfp : stripQuoteS a = "Footprint"
        · rw [if_pos hfp] at h ⊢
          match y with
          | .list m => exact Bool.noConfusion h
          | .atom vv =>
            dsimp only
            rw [if_pos ⟨hprop, hfp⟩]
        · rw [if_neg hfp] at h ⊢
          match y with
          | .list m => rfl
          | .atom vv =>
            dsimp only
            rw [if_neg (fun hc => hfp hc.2)]
    · rw [if_neg hprop] at h ⊢
      match x with
      | .list m =>
        match y with
        | .list mm => rfl
        | .atom vv => rfl
      | .atom a =>
        match y with
        | .list mm => rfl
        | .atom vv =>
          dsimp only
          rw [if_neg (fun hc => hprop hc.1)]

mutual
theorem findFootprints_of_ok (t : SExpr) (h : fpOkE t = true) :
    findFootprints t = some (ffSpecE t) := by
  match t with
  | .atom a => rfl
  | .list l =>
    have h1 : fpShapeOk l = true := by
      rw [fpOkE, Bool.and_eq_true] at h
      exact h.1
    have h2 : fpOkL l = true := by
      rw [fpOkE, Bool.and_eq_true] at h
      exact h.2
    rw [findFootprints, propCheck_of_ok l h1, ffItems_of_ok l h2, ffSpecE]
    rfl

theorem ffItems_of_ok (l : SList) (h : fpOkL l = true) :
    ffItems l = some (ffSpecL l) := by
  match l with
  | .nil => rfl
  | .cons x xs =>
    rw [fpOkL, Bool.and_eq_true] at h
    rw [ffItems, findFootprints_of_ok x h.1, ffItems_of_ok xs h.2, ffSpecL]
    rfl
end

mutual
theorem ffSpecE_mem (pr : String × String) (t : SExpr) :
    pr ∈ ffSpecE t ↔ ∃ n ∈ allNodesE t, pr ∈ fpExtract n := by
  match t with
  | .atom a =>
    rw [ffSpecE, allNodesE]
    simp [fpExtract]
  | .list l =>
    rw [ffSpecE, allNodesE]
    simp only [Finset.mem_union, List.mem_cons, ffSpecL_mem pr l]
    constructor
    · rintro (hx | ⟨n, hn, hpn⟩)
      · exact ⟨.list l, Or.inl rfl, hx⟩
      · exact ⟨n, Or.inr hn, hpn⟩
    · rintro ⟨n, hn | hn, hpn⟩
      · subst hn
        exact Or.inl hpn
      · exact Or.inr ⟨n, hn, hpn⟩

theorem ffSpecL_mem (pr : String × String) (l : SList) :
    pr ∈ ffSpecL l ↔ ∃ n ∈ allNodesL l, pr ∈ fpExtract n := by
  match l with
  | .nil =>
    rw [ffSpecL, allNodesL]
    simp
  | .cons x xs =>
    rw [ffSpecL, allNodesL]
    simp only [Finset.mem_union, List.mem_append, ffSpecE_mem pr x, ffSpecL_mem pr xs]
    constructor
    · rintro (⟨n, hn, hpn⟩ | ⟨n, hn, hpn⟩)
      · exact ⟨n, Or.inl hn, hpn⟩
      · exact ⟨n, Or.inr hn, hpn⟩
    · rintro ⟨n, hn | hn, hpn⟩
      · exact Or.inl ⟨n, hn, hpn⟩
      · exact Or.inr ⟨n, hn, hpn⟩
end

example : findFootprints (L [.atom "property", .atom "\"Footprint\"",
    .atom "\"Resistor_SMD:R_0805\""]) = some {("Resistor_SMD", "R_0805")} := rfl
example : findFootprints (L [.atom "property", .atom "\"Footprint\"", .atom "\"~\""]) =
    some ∅ := rfl
example : findFootprints (L [.atom "property", L [.atom "a"], .atom "b"]) = none := rfl

/-! ### `find_library_path` (src/sexpr_parser.py lines 266-300)

`search_lib(node)`: for a list node whose head equals `"lib"`, it scans all
items of shape `(name X ...)` / `(uri Y ...)` (last occurrence wins,
`item[1].strip('"')` raises `AttributeError` when `item[1]` is a list), and
returns the uri when the extracted name equals the target AND the extracted
uri is truthy (present and non-empty); otherwise it recurses into every list
item in order, propagating the first truthy recursive result.  `none` models
a raised exception, `some none` models returning Python `None`. -/

/-- One iteration of the field-scanning loop over a lib entry's items. -/
def fieldStep (acc : Option String × Option String) : SExpr →
    Option (Option String × Option String)
  | .atom _ => some acc
  | .list .nil => some acc
  | .list (.cons _ .nil) => some acc
  | .list (.cons h (.cons snd _)) =>
    if h = SExpr.atom "name" then
      match snd with
      | .atom s => some (some (stripQuoteS s), acc.2)
      | .list _ => none
    else if h = SExpr.atom "uri" then
      match snd with
      | .atom s => some (acc.1, some (stripQuoteS s))
      | .list _ => none
    else some acc

/-- Total (crash-free) version of `fieldStep`: where the code would raise,
the item is skipped.  Used only under the `libOkE` hypothesis, where the two
agree. -/
def fieldStepT (acc : Option String × Option String) : SExpr →
    Option String × Option String
  | .atom _ => acc
  | .list .nil => acc
  | .list (.cons _ .nil) => acc
  | .list (.cons h (.cons snd _)) =>
    if h = SExpr.atom "name" then
      match snd with
      | .atom s => (some (stripQuoteS s), acc.2)
      | .list _ => acc
    else if h = SExpr.atom "uri" then
      match snd with
      | .atom s => (acc.1, some (stripQuoteS s))
      | .list _ => acc
    else acc

/-- The `for item in node` loop extracting `lib_entry_name` / `lib_entry_uri`. -/
def extractFields : SList → (Option String × Option String) →
    Option (Option String × Option String)
  | .nil, acc => some acc
  | .cons x xs, acc =>
    match fieldStep acc x with
    | none => none
    | some acc2 => extractFields xs acc2

/-- Total version of `extractFields`. -/
def extractFieldsT : SList → (Option String × Option String) →
    (Option String × Option String)
  | .nil, acc => acc
  | .cons x xs, acc => extractFieldsT xs (fieldStepT acc x)

/-- An item is crash-free for the field scan: if it looks like a
`name`/`uri` field with at least two elements, its second element is an
atom (Python would call `.strip` on it). -/
def fieldOkB : SExpr → Bool
  | .atom _ => true
  | .list .nil => true
  | .list (.cons _ .nil) => true
  | .list (.cons h (.cons snd _)) =>
    if h = SExpr.atom "name" ∨ h = SExpr.atom "uri" then
      match snd with
      | .atom _ => true
      | .list _ => false
    else true

def fieldsOk : SList → Bool
  | .nil => true
  | .cons x xs => fieldOkB x && fieldsOk xs

mutual
/-- Every `lib`-headed list node in the tree has crash-free field items. -/
def libOkE : SExpr → Bool
  | .atom _ => true
  | .list .nil => true
  | .list (.cons h t) =>
    (if h = SExpr.atom "lib" then fieldsOk (.cons h t) else true) &&
      libOkL (.cons h t)
def libOkL : SList → Bool
  | .nil => true
  | .cons x xs => libOkE x && libOkL xs
end

/-- Truthiness of `lib_entry_uri` in
`if lib_entry_name == lib_name and lib_entry_uri:`. -/
def uriTruthy : Option String → Bool
  | none => false
  | some u => if u = "" then false else true

/-- The early return of `search_lib` on a lib entry: the uri when the name
matches and the uri is truthy, else nothing. -/
def entryVerdict (fields : Option String × Option String) (libName : String) :
    Option String :=
  if fields.1 = some libName ∧ uriTruthy fields.2 = true then fields.2 else none

mutual
/-- `search_lib(node)`: outer `none` is a raised exception, `some none` is
Python `None`, `some (some u)` is a returned uri string. -/
def searchLib (libName : String) : SExpr → Option (Option String)
  | .atom _ => some none
  | .list .nil => some none
  | .list (.cons h t) =>
    if h = SExpr.atom "lib" then
      match extractFields (.cons h t) (none, none) with
      | none => none
      | some fields =>
        match entryVerdict fields libName with
        | some u => some (some u)
        | none => searchList libName (.cons h t)
    else searchList libName (.cons h t)
/-- The recursion loop `for item in node: if isinstance(item, list): ...`,
with Python's `if result:` truthiness (an empty-string result would be
skipped). -/
def searchList (libName : String) : SList → Option (Option String)
  | .nil => some none
  | .cons x xs =>
    match x with
    | .atom _ => searchList libName xs
    | .list l =>
      match searchLib libName (.list l) with
      | none => none
      | some none => searchList libName xs
      | some (some u) =>
        if u = "" then searchList libName xs else some (some u)
end

/-- `find_library_path(sexpr, lib_name)`. -/
def findLibraryPath (sexpr : SExpr) (libName : String) : Option (Option String) :=
  searchLib libName sexpr

/-- A node's contribution to the search, as the code performs it: a
`lib`-headed list whose (last-wins) name field equals the target and whose
uri field is non-empty yields that uri. -/
def libEntryUri : SExpr → String → Option String
  | .atom _, _ => none
  | .list .nil, _ => none
  | .list (.cons h t), libName =>
    if h = SExpr.atom "lib" then
      entryVerdict (extractFieldsT (.cons h t) (none, none)) libName
    else none

/-- Claim-side reading of a lib entry (clause of C9): the entry hits as soon
as its name field equals the target, and the hit value is the entry's
quote-stripped uri field, with no condition on that uri. -/
def claimHit : SExpr → String → Option (Option String)
  | .atom _, _ => none
  | .list .nil, _ => none
  | .list (.cons h t), libName =>
    if h = SExpr.atom "lib" ∧ (extractFieldsT (.cons h t) (none, none)).1 = some libName
    then some (extractFieldsT (.cons h t) (none, none)).2
    else none

/-- Claim-side reading of C9: the uri field of the first entry, in
depth-first preorder, whose name field equals the target. -/
def claimFirstUri (t : SExpr) (libName : String) : Option (Option String) :=
  (allNodesE t).findSome? (fun n => claimHit n libName)

theorem findSome?_cons_none {α β : Type} {f : α → Option β} {a : α}
    (h : f a = none) (l : List α) :
    List.findSome? f (a :: l) = List.findSome? f l := by
  rw [List.findSome?_cons, h]

theorem findSome?_cons_some {α β : Type} {f : α → Option β} {a : α} {b : β}
    (h : f a = some b) (l : List α) :
    List.findSome? f (a :: l) = some b := by
  rw [List.findSome?_cons, h]

theorem findSome?_some_mem {α β : Type} (f : α → Option β) (l : List α) (u : β)
    (h : l.findSome? f = some u) : ∃ x ∈ l, f x = some u := by
  induction l with
  | nil => simp [List.findSome?] at h
  | cons a as ih =>
    cases hfa : f a with
    | some b =>
      rw [findSome?_cons_some hfa] at h
      exact ⟨a, by simp, by rw [hfa, h]⟩
    | none =>
      rw [findSome?_cons_none hfa] at h
      obtain ⟨x, hx, hfx⟩ := ih h
      exact ⟨x, by simp [hx], hfx⟩

theorem entryVerdict_ne_empty (f : Option String × Option String)
    (libName u : String) (h : entryVerdict f libName = some u) : u ≠ "" := by
  rw [entryVerdict] at h
  by_cases hc : f.1 = some libName ∧ uriTruthy f.2 = true
  · rw [if_pos hc] at h
    cases hf2 : f.2 with
    | none => rw [hf2] at h; exact absurd h (by simp)
    | some v =>
      have h2 := hc.2
      rw [hf2] at h h2
      rw [uriTruthy] at h2
      by_cases hv : v = ""
      · rw [if_pos hv] at h2; exact absurd h2 (by simp)
      · cases h; exact hv
  · rw [if_neg hc] at h
    exact absurd h (by simp)

theorem libEntryUri_ne_empty (n : SExpr) (libName u : String)
    (h : libEntryUri n libName = some u) : u ≠ "" := by
  match n with
  | .atom a => rw [libEntryUri] at h; exact absurd h (by simp)
  | .list .nil => rw [libEntryUri] at h; exact absurd h (by simp)
  | .list (.cons hd t) =>
    rw [libEntryUri] at h
    by_cases hh : hd = SExpr.atom "lib"
    · rw [if_pos hh] at h
      exact entryVerdict_ne_empty _ _ _ h
    · rw [if_neg hh] at h
      exact absurd h (by simp)

theorem fieldStep_ok (acc : Option String × Option String) (x : SExpr)
    (h : fieldOkB x = true) : fieldStep acc x = some (fieldStepT acc x) := by
  match x with
  | .atom a => rfl
  | .list .nil => rfl
  | .list (.cons y .nil) => rfl
  | .list (.cons hd (.cons snd rest)) =>
    rw [fieldOkB.eq_def] at h
    dsimp only at h
    rw [fieldStep.eq_def, fieldStepT.eq_def]
    dsimp only
    by_cases hn : hd = SExpr.atom "name"
    · simp only [if_pos hn]
      rw [if_pos (Or.inl hn)] at h
      match snd with
      | .atom s => rfl
      | .list m => dsimp only at h; exact Bool.noConfusion h
    · simp only [if_neg hn]
      by_cases hu : hd = SExpr.atom "uri"
      · simp only [if_pos hu]
        rw [if_pos (Or.inr hu)] at h
        match snd with
        | .atom s => rfl
        | .list m => dsimp only at h; exact Bool.noConfusion h
      · simp only [if_neg hu]

theorem extractFields_ok (l : SList) (acc : Option String × Option String)
    (h : fieldsOk l = true) : extractFields l acc = some (extractFieldsT l acc) := by
  match l with
  | .nil => rfl
  | .cons x xs =>
    rw [fieldsOk, Bool.and_eq_true] at h
    rw [extractFields, extractFieldsT, fieldStep_ok _ _ h.1]
    dsimp only
    exact extractFields_ok xs (fieldStepT acc x) h.2

mutual
theorem searchLib_spec (libName : String) (t : SExpr) (h : libOkE t = true) :
    searchLib libName t =
      some ((allNodesE t).findSome? (fun n => libEntryUri n libName)) := by
  match t with
  | .atom a => rfl
  | .list .nil => rfl
  | .list (.cons hd tl) =>
    rw [libOkE, Bool.and_eq_true] at h
    obtain ⟨hfields, hrec⟩ := h
    rw [searchLib, allNodesE]
    by_cases hh : hd = SExpr.atom "lib"
    · rw [if_pos hh] at hfields ⊢
      rw [extractFields_ok _ _ hfields]
      dsimp only
      cases hev : entryVerdict (extractFieldsT (.cons hd tl) (none, none)) libName with
      | some u =>
        dsimp only
        have hf : (fun n => libEntryUri n libName) (SExpr.list (.cons hd tl)) = some u := by
          show libEntryUri (.list (.cons hd tl)) libName = some u
          rw [libEntryUri, if_pos hh, hev]
        rw [findSome?_cons_some (f := fun n => libEntryUri n libName) hf]
      | none =>
        dsimp only
        have hf : (fun n => libEntryUri n libName) (SExpr.list (.cons hd tl)) = none := by
          show libEntryUri (.list (.cons hd tl)) libName = none
          rw [libEntryUri, if_pos hh, hev]
        rw [findSome?_cons_none (f := fun n => libEntryUri n libName) hf]
        exact searchList_spec libName (.cons hd tl) hrec
    · rw [if_neg hh]
      have hf : (fun n => libEntryUri n libName) (SExpr.list (.cons hd tl)) = none := by
        show libEntryUri (.list (.cons hd tl)) libName = none
        rw [libEntryUri, if_neg hh]
      rw [findSome?_cons_none (f := fun n => libEntryUri n libName) hf]
      exact searchList_spec libName (.cons hd tl) hrec

theorem searchList_spec (libName : String) (l : SList) (h : libOkL l = true) :
    searchList libName l =
      some ((allNodesL l).findSome? (fun n => libEntryUri n libName)) := by
  match l with
  | .nil => rfl
  | .cons x xs =>
    rw [libOkL, Bool.and_eq_true] at h
    obtain ⟨hx, hxs⟩ := h
    rw [searchList.eq_def, allNodesL]
    match x with
    | .atom a =>
      dsimp only
      rw [List.findSome?_append]
      have h0 : List.findSome? (fun n => libEntryUri n libName)
          (allNodesE (.atom a)) = none := rfl
      rw [h0, Option.none_or]
      exact searchList_spec libName xs hxs
    | .list m =>
      dsimp only
      rw [searchLib_spec libName (.list m) hx]
      rw [List.findSome?_append]
      cases hfs : List.findSome? (fun n => libEntryUri n libName)
          (allNodesE (.list m)) with
      | none =>
        dsimp only
        rw [Option.none_or]
        exact searchList_spec libName xs hxs
      | some u =>
        dsimp only
        have hne : u ≠ "" := by
          obtain ⟨n, _, hn⟩ := findSome?_some_mem _ _ _ hfs
          exact libEntryUri_ne_empty n libName u hn
        rw [if_neg hne]
        rfl
end

/-- The counterexample library table: two entries named `"A"`, the first
with an empty uri, the second with uri `"x"`. -/
def T9 : SExpr :=
  L [.atom "fp_lib_table",
     L [.atom "lib", L [.atom "name", .atom "\"A\""], L [.atom "uri", .atom "\"\""]],
     L [.atom "lib", L [.atom "name", .atom "\"A\""], L [.atom "uri", .atom "\"x\""]]]

example : claimFirstUri T9 "A" = some (some "") := rfl
example : findLibraryPath T9 "A" = some (some "x") := rfl
example : findLibraryPath (L [.atom "fp_lib_table",
    L [.atom "lib", L [.atom "name", L [.atom "z"], .atom "y"]]]) "A" = none := rfl

/-! ## The claims -/

/-- C1 (amended): for every tree of legal atoms whose root is a list and in
which no list node starts with one of the special-layout keywords
(`fp_lib_table`, `lib`, `kicad_symbol_lib`, `symbol`), `to_string` succeeds
and `parse` of its output returns the original tree. -/
theorem C1_round_trip (t : SExpr) (hA : atomsLegalE t = true)
    (hN : noSpecialE t = true) (hL : isListNode t = true) :
    ∃ s, to_string t 0 = some s ∧ parse s = some t :=
  ⟨⟨ser t⟩, (roundtrip_core t hA hN hL).1, (roundtrip_core t hA hN hL).2⟩

/-- C1 witness: the round trip at the concrete tree `(a ("b c"))`. -/
theorem C1_round_trip_witness :
    ∃ s, to_string (L [.atom "a", L [.atom "\"b c\""]]) 0 = some s ∧
      parse s = some (L [.atom "a", L [.atom "\"b c\""]]) :=
  C1_round_trip (L [.atom "a", L [.atom "\"b c\""]]) rfl rfl rfl

/-- C1 counterexample: the tree `(lib MyLib)` is built from legal unquoted
atoms, yet `to_string` renders it as `"(libMyLib)"` (the `lib` layout
concatenates children without separators), which parses to the one-atom list
`(libMyLib)`, not the original tree. -/
theorem C1_counterexample :
    atomsLegalE (L [.atom "lib", .atom "MyLib"]) = true ∧
    to_string (L [.atom "lib", .atom "MyLib"]) 0 = some "(libMyLib)" ∧
    parse "(libMyLib)" = some (L [.atom "libMyLib"]) ∧
    L [.atom "libMyLib"] ≠ L [.atom "lib", .atom "MyLib"] :=
  ⟨rfl, rfl, rfl, by decide⟩

/-- C2 (amended): `parse` succeeds exactly when the depth-only scan of the
stripped text never meets a `)` at paren depth 0 outside a quoted string
(`closeOk`); a missing `)` or an unterminated quoted string is recovered
from, but a surplus `)` at depth 0 raises `IndexError`. -/
theorem C2_parse_recovery (s : String) :
    (parse s).isSome = true ↔ closeOk s = true := by
  rw [parse, parseCore, closeOk]
  have hmap : ((parseRun initState (pyStrip s.data)).map finishParse).isSome =
      (parseRun initState (pyStrip s.data)).isSome := by
    cases parseRun initState (pyStrip s.data) <;> rfl
  rw [hmap]
  exact run_agree (pyStrip s.data) ⟨rfl, rfl, rfl, rfl⟩

/-- C2 counterexample: a surplus `)` at depth 0 raises (`none`), while the
other malformed shapes are recovered: a missing `)` closes implicitly and an
unterminated quoted string extends to the end of input. -/
theorem C2_counterexample :
    parse ")" = none ∧
    parse "(a (b" = some (L []) ∧
    (parse "(a \"bc").isSome = true :=
  ⟨rfl, rfl, rfl⟩

/-- C3: `_classify_datasheet_ref` always returns one of the five verdicts,
chosen by the first-match-wins rules of the claim; `seen` gains the value
exactly on the `add` verdict; and re-classifying a list against the seen set
populated by a first pass turns every `add` into `duplicate`. -/
theorem C3_classify_rules (v : String) (s : Finset String) (l : List String)
    (s0 : Finset String) :
    ((classify v s).1 = "add" ∨ (classify v s).1 = "empty" ∨
      (classify v s).1 = "localised" ∨ (classify v s).1 = "non_pdf" ∨
      (classify v s).1 = "duplicate") ∧
    (v = "" ∨ v = "~" → classify v s = ("empty", s)) ∧
    (¬(v = "" ∨ v = "~") → v.startsWith kiprjmodPrefix = true →
      classify v s = ("localised", s)) ∧
    (¬(v = "" ∨ v = "~") → v.startsWith kiprjmodPrefix = false →
      isWebUrl v = false → pdfSuffix v = false → classify v s = ("non_pdf", s)) ∧
    (¬(v = "" ∨ v = "~") → v.startsWith kiprjmodPrefix = false →
      (isWebUrl v = true ∨ pdfSuffix v = true) → v ∈ s →
      classify v s = ("duplicate", s)) ∧
    (¬(v = "" ∨ v = "~") → v.startsWith kiprjmodPrefix = false →
      (isWebUrl v = true ∨ pdfSuffix v = true) → v ∉ s →
      classify v s = ("add", insert v s)) ∧
    ((classify v s).1 = "add" → (classify v s).2 = insert v s) ∧
    ((classify v s).1 ≠ "add" → (classify v s).2 = s) ∧
    (∀ i, (classifyScan l s0).1.get? i = some "add" →
      (classifyScan l (classifyScan l s0).2).1.get? i = some "duplicate") := by
  refine ⟨by simpa using classify_verdict_mem v s, ?_, ?_, ?_, ?_, ?_, ?_, ?_, ?_⟩
  · intro h
    unfold classify
    rw [if_pos h]
  · intro h1 h2
    unfold classify
    rw [if_neg h1, if_pos h2]
  · intro h1 h2 h3 h4
    unfold classify
    rw [if_neg h1, if_neg (by simp [h2]), if_pos ⟨by simp [h3], by simp [h4]⟩]
  · intro h1 h2 h3 h4
    unfold classify
    rw [if_neg h1, if_neg (by simp [h2]),
      if_neg (by rcases h3 with h | h <;> simp [h]), if_pos h4]
  · intro h1 h2 h3 h4
    unfold classify
    rw [if_neg h1, if_neg (by simp [h2]),
      if_neg (by rcases h3 with h | h <;> simp [h]), if_neg h4]
  · unfold classify
    split_ifs
    · intro h; exact absurd h (by simp)
    · intro h; exact absurd h (by simp)
    · intro h; exact absurd h (by simp)
    · intro h; exact absurd h (by simp)
    · intro _; rfl
  · unfold classify
    split_ifs
    · intro _; rfl
    · intro _; rfl
    · intro _; rfl
    · intro _; rfl
    · intro h; exact absurd rfl h
  · intro i h
    exact classifyScan_dup l s0 (classifyScan l s0).2 (Finset.Subset.refl _) i h

/-- C4: for any parse sequence the cache never exceeds `max_cache_size`;
filling an empty cache with `m + 1` distinct unseen texts leaves exactly the
last `m`, evicting the oldest; a hit on the oldest entry refreshes it, so the
following insertion evicts the second-oldest instead; and with max size 3,
parsing five distinct texts leaves exactly the three most recent. -/
theorem C4_lru_cache (m : Nat) (ts : List String) :
    (runParses ⟨[], m⟩ ts).cache.length ≤ m ∧
    (1 ≤ m → ts.length = m + 1 → (ts.map pyStripS).Nodup →
      (∀ t ∈ ts, parseCore (pyStripS t).data ≠ none) →
      (runParses ⟨[], m⟩ ts).cache.map Prod.fst = (ts.map pyStripS).drop 1) ∧
    (∀ (k : String) (v : SExpr) (e : String × SExpr)
        (rest : List (String × SExpr)) (t : String) (r : SExpr),
      ((k, v) :: e :: rest).length = m → pyStripS k = k →
      lookupCache (e :: rest) k = none →
      lookupCache ((k, v) :: e :: rest) (pyStripS t) = none →
      parseCore (pyStripS t).data = some r →
      (runParses ⟨(k, v) :: e :: rest, m⟩ [k, t]).cache =
        rest ++ [(k, v), (pyStripS t, r)]) ∧
    (runParses ⟨[], 3⟩ ["(a)", "(b)", "(c)", "(d)", "(e)"]).cache =
      [("(c)", L [.atom "c"]), ("(d)", L [.atom "d"]), ("(e)", L [.atom "e"])] :=
  ⟨runParses_cache_le m ts,
   fun hm hlen hnd hok => runParses_evict m hm ts hlen hnd hok,
   fun k v e rest t r h1 h2 h3 h4 h5 => parseCached_refresh m k v e rest t r h1 h2 h3 h4 h5,
   lru_concrete⟩

/-- C5 (amended): applying a reference map leaves the content unchanged (and
counts zero replacements) when no `old` key occurs in it; in particular a
second application of the same map is a no-op whenever the first pass's
output contains no key, which fails in general because `str.replace` output
can re-contain a key. -/
theorem C5_rewrite_idempotent (repls : List (List Char × List Char)) (c : List Char)
    (h : ∀ p ∈ repls, containsSub p.1 (replaceReferencesInContent c repls).2 = false) :
    (replaceReferencesInContent (replaceReferencesInContent c repls).2 repls).2 =
      (replaceReferencesInContent c repls).2 := by
  rw [replaceReferencesInContent, replaceReferences_stable repls _ h 0]

/-- C5 witness: the map `a ↦ b` on content `a`: the second application
changes nothing. -/
theorem C5_rewrite_witness :
    (replaceReferencesInContent (replaceReferencesInContent ("a".data)
        [("a".data, "b".data)]).2 [("a".data, "b".data)]).2 =
      (replaceReferencesInContent ("a".data) [("a".data, "b".data)]).2 :=
  C5_rewrite_idempotent [("a".data, "b".data)] ("a".data) (by decide)

/-- C5 counterexample: the map `a ↦ aa` on content `a` produces `aa` on the
first application and `aaaa` on the second: literal substring replacement is
not idempotent. -/
theorem C5_counterexample :
    (replaceReferencesInContent ("a".data) [("a".data, "aa".data)]).2 = "aa".data ∧
    (replaceReferencesInContent ("aa".data) [("a".data, "aa".data)]).2 = "aaaa".data :=
  ⟨rfl, rfl⟩

/-- C6: the final seen set of a scan from `∅` is exactly the set of distinct
accepted values (non-empty, not already localised, format-accepted), so any
permutation of the raw values yields the same final seen set; and within one
scan order a repeated value is never classified `add` at a later occurrence. -/
theorem C6_dedup_order (l1 l2 : List String) (s : Finset String) :
    (classifyScan l1 ∅).2 = (l1.filter acceptedRef).toFinset ∧
    (l1.Perm l2 → (classifyScan l1 ∅).2 = (classifyScan l2 ∅).2) ∧
    (∀ i j v, i < j → l1.get? i = some v → l1.get? j = some v →
      (classifyScan l1 s).1.get? j ≠ some "add") := by
  refine ⟨?_, ?_, ?_⟩
  · rw [classifyScan_seen_eq l1 ∅]
    simp
  · intro hp
    rw [classifyScan_seen_eq l1 ∅, classifyScan_seen_eq l2 ∅]
    rw [List.toFinset_eq_of_perm _ _ (hp.filter acceptedRef)]
  · intro i j v hij hi hj
    exact classifyScan_later_dup l1 s i j v hij hi hj

/-- The tree of C7's worked example
`(property "Footprint" "Resistor_SMD:R_0805")`. -/
def T7 : SExpr :=
  L [.atom "property", .atom "\"Footprint\"", .atom "\"Resistor_SMD:R_0805\""]

/-- C7 (amended): on trees in which no `property`-headed list carries a list
in its keyword or value slot, `find_footprints` returns exactly the set of
pairs contributed by nodes shaped `(property "Footprint" "Library:Name" ...)`
anywhere in the tree, split on the first colon with empty halves discarded;
the claim's two worked examples evaluate as stated. -/
theorem C7_find_footprints (t : SExpr) (h : fpOkE t = true) :
    findFootprints t = some (ffSpecE t) ∧
    (∀ pr : String × String, pr ∈ ffSpecE t ↔ ∃ n ∈ allNodesE t, pr ∈ fpExtract n) ∧
    findFootprints T7 = some {("Resistor_SMD", "R_0805")} ∧
    findFootprints (L [.atom "property", .atom "\"Footprint\"", .atom "\"~\""]) =
      some ∅ :=
  ⟨findFootprints_of_ok t h, fun pr => ffSpecE_mem pr t, rfl, rfl⟩

/-- C7 witness: the amended statement at the worked example tree. -/
theorem C7_find_footprints_witness :
    findFootprints T7 = some (ffSpecE T7) ∧
    (∀ pr : String × String, pr ∈ ffSpecE T7 ↔ ∃ n ∈ allNodesE T7, pr ∈ fpExtract n) ∧
    findFootprints T7 = some {("Resistor_SMD", "R_0805")} ∧
    findFootprints (L [.atom "property", .atom "\"Footprint\"", .atom "\"~\""]) =
      some ∅ :=
  C7_find_footprints T7 rfl

/-- C7 counterexample: the parseable tree `(property (a) b)` makes
`find_footprints` raise (`node[1].strip('"')` on a list), so the finder does
not return a set for every parsed tree. -/
theorem C7_counterexample :
    parse "(property (a) b)" = some (L [.atom "property", L [.atom "a"], .atom "b"]) ∧
    findFootprints (L [.atom "property", L [.atom "a"], .atom "b"]) = none :=
  ⟨rfl, rfl⟩

/-- C8 (amended): `to_string` succeeds on every tree in which no nonempty
list has a list as its first element; degenerate shapes such as a bare atom
or an empty list are stringified rather than raising. -/
theorem C8_to_string_total (t : SExpr) (i : Nat) (h : headsOk t = true) :
    ∃ s, to_string t i = some s := by
  obtain ⟨cs, hcs⟩ := toStr_some t h i
  exact ⟨⟨cs⟩, by rw [to_string, hcs]; rfl⟩

/-- C8 witness: the bare atom `x` where a list was expected is stringified
verbatim. -/
theorem C8_to_string_witness : ∃ s, to_string (SExpr.atom "x") 0 = some s :=
  C8_to_string_total (SExpr.atom "x") 0 rfl

/-- C8 counterexample: serializing `(symbol ((x) y))` raises — Python
evaluates `keyword in inline_keywords` with the list `(x)` as `keyword`,
an unhashable type — so `to_string` is not total on degenerate trees whose
list nodes start with a list. -/
theorem C8_counterexample :
    to_string (L [.atom "symbol", L [L [.atom "x"], .atom "y"]]) 0 = none := rfl

/-- C9 (amended): on trees whose `lib` entries carry atoms in the value slot
of their `name`/`uri` fields, `find_library_path` returns the quote-stripped
uri of the first entry in depth-first preorder whose name field (last
occurrence wins) equals the target AND whose uri field is present and
non-empty; entries matching the target with an empty or missing uri are
skipped, and `None` is returned when no entry qualifies. -/
theorem C9_library_path (t : SExpr) (libName : String) (h : libOkE t = true) :
    findLibraryPath t libName =
      some ((allNodesE t).findSome? (fun n => libEntryUri n libName)) :=
  searchLib_spec libName t h

/-- C9 witness: the amended statement at the concrete table `T9`. -/
theorem C9_library_path_witness :
    findLibraryPath T9 "A" =
      some ((allNodesE T9).findSome? (fun n => libEntryUri n "A")) :=
  C9_library_path T9 "A" rfl

/-- C9 counterexample: in `T9` the first entry named `A` has uri `""`; the
claim-side first-match rule yields that empty uri, but the code skips the
falsy uri and returns `"x"` from the second entry. -/
theorem C9_counterexample :
    claimFirstUri T9 "A" = some (some "") ∧
    findLibraryPath T9 "A" = some (some "x") :=
  ⟨rfl, rfl⟩

/-- C10: `parse` gives the same result on a string and on its stripped form,
and two texts with equal stripped forms are indistinguishable to a `parse`
call — same result and same cache state — so they share one cache entry. -/
theorem C10_strip_invariance (s t1 t2 : String) (p : Parser) :
    parse s = parse (pyStripS s) ∧
    (pyStripS t1 = pyStripS t2 → parseCached p t1 = parseCached p t2) := by
  constructor
  · show parseCore (pyStrip s.data) = parseCore (pyStrip (pyStripS s).data)
    show parseCore (pyStrip s.data) = parseCore (pyStrip (pyStrip s.data))
    rw [pyStrip_idem]
  · intro h
    unfold parseCached
    rw [h]

end Bakery